import Mathlib

/-!
Verification of the star-graph-viz orbital sandbox core.

Numbers are modelled by the rationals. The JavaScript platform primitives
used by the code (Math.sqrt, Math.pow, Math.atan2, Math.PI) are not part of
the repository; they are supplied as an explicit parameter structure
`JsMath`, so every repository function stays executable and concrete
instances can be evaluated. `Math.hypot a b` is modelled as
`sqrt (a*a + b*b)`. JavaScript `Map`s (insertion-ordered, `set` updates in
place) are modelled as association lists with an order-preserving `aset`.
JavaScript `Infinity` in the path solver is modelled by `Option ℚ` with
`none` standing for `+∞`.
-/

namespace StarViz

structure JsMath where
  sqrt : ℚ → ℚ
  pow : ℚ → ℚ → ℚ
  atan2 : ℚ → ℚ → ℚ
  pi : ℚ

/-! Association lists modelling JavaScript Map (insertion order, in-place update). -/

def aget? {α : Type} : List (String × α) → String → Option α
  | [], _ => none
  | (k', v) :: t, k => if k' = k then some v else aget? t k

def aset {α : Type} : List (String × α) → String → α → List (String × α)
  | [], k, v => [(k, v)]
  | (k', v') :: t, k, v =>
    if k' = k then (k, v) :: t else (k', v') :: aset t k v

def akeys {α : Type} (l : List (String × α)) : List String := l.map Prod.fst

theorem aget?_aset_self {α : Type} (l : List (String × α)) (k : String) (v : α) :
    aget? (aset l k v) k = some v := by
  induction l with
  | nil => simp [aset, aget?]
  | cons p t ih =>
    obtain ⟨k', v'⟩ := p
    by_cases h : k' = k <;> simp [aset, aget?, h, ih]

theorem aget?_aset_ne {α : Type} (l : List (String × α)) (k k' : String) (v : α)
    (h : k ≠ k') : aget? (aset l k v) k' = aget? l k' := by
  induction l with
  | nil => simp [aset, aget?, h]
  | cons p t ih =>
    obtain ⟨k₀, v₀⟩ := p
    by_cases h0 : k₀ = k
    · subst h0
      simp [aset, aget?, h]
    · by_cases h1 : k₀ = k'
      · simp [aset, aget?, h0, h1, Ne.symm h]
      · simp [aset, aget?, h0, h1, ih]

theorem akeys_aset {α : Type} (l : List (String × α)) (k : String) (v : α) :
    akeys (aset l k v) = if k ∈ akeys l then akeys l else akeys l ++ [k] := by
  induction l with
  | nil => simp [aset, akeys]
  | cons p t ih =>
    obtain ⟨k₀, v₀⟩ := p
    by_cases h0 : k₀ = k
    · subst h0
      simp [aset, akeys]
    · have h0' : ¬ k = k₀ := fun hk => h0 hk.symm
      simp only [aset, if_neg h0, akeys, List.map_cons] at ih ⊢
      rw [ih]
      by_cases hm : k ∈ t.map Prod.fst
      · simp [hm, h0']
      · simp [hm, h0']

theorem aget?_isSome_iff_mem {α : Type} (l : List (String × α)) (k : String) :
    (aget? l k).isSome ↔ k ∈ akeys l := by
  induction l with
  | nil => simp [aget?, akeys]
  | cons p t ih =>
    obtain ⟨k₀, v₀⟩ := p
    by_cases h0 : k₀ = k
    · simp [aget?, akeys, h0]
    · have h0' : ¬ k = k₀ := fun hk => h0 hk.symm
      simp [aget?, akeys, h0, h0', ih]

theorem aget?_eq_none_of_not_mem {α : Type} (l : List (String × α)) (k : String)
    (h : k ∉ akeys l) : aget? l k = none := by
  have h2 := (aget?_isSome_iff_mem l k).not.mpr h
  cases hg : aget? l k with
  | none => rfl
  | some v => rw [hg] at h2; simp at h2

theorem isSome_of_mem_akeys {α : Type} {l : List (String × α)} {k : String}
    (h : k ∈ akeys l) : (aget? l k).isSome :=
  (aget?_isSome_iff_mem l k).mpr h

/-! Data model: Star and GraphLink, translated from models/Star.ts. -/

structure Star where
  id : String
  name : String
  mass : ℚ
  x : ℚ
  y : ℚ
  vx : ℚ
  vy : ℚ
  color : Option String
deriving DecidableEq, Repr

instance : Inhabited Star := ⟨⟨"", "", 0, 0, 0, 0, 0, none⟩⟩

structure GraphLink where
  source : String
  target : String
  distance : Option ℚ
deriving DecidableEq, Repr

/-! Leapfrog engine, translated from utils/nbody2d.ts. -/

structure NBodyParams where
  G : ℚ
  eps : ℚ
  dt : ℚ
  mergeDist : ℚ
  lockSunId : Option String

/-- Acceleration of body `a` from all other bodies (inner loop of `accelAll`). -/
def sumAccel (M : JsMath) (a : Star) (stars : List Star) (G eps : ℚ) : ℚ × ℚ :=
  stars.foldl
    (fun s b =>
      if a.id = b.id then s
      else
        let dx := b.x - a.x
        let dy := b.y - a.y
        let r2 := dx * dx + dy * dy + eps * eps
        let invR := 1 / M.sqrt r2
        let invR3 := invR * invR * invR
        let k := G * b.mass * invR3
        (s.1 + dx * k, s.2 + dy * k))
    (0, 0)

/-- The `accelAll` maps `ax`, `ay`, keyed by body id (later duplicates overwrite). -/
def accelAll (M : JsMath) (stars : List Star) (G eps : ℚ) :
    List (String × ℚ) × List (String × ℚ) :=
  stars.foldl
    (fun m a =>
      let s := sumAccel M a stars G eps
      (aset m.1 a.id s.1, aset m.2 a.id s.2))
    ([], [])

/-- JavaScript truthiness test of `p.lockSunId && s.id === p.lockSunId`
(an empty-string id is falsy). -/
def lockActive (lockSunId : Option String) (sid : String) : Bool :=
  match lockSunId with
  | none => false
  | some a => (!(a == "")) && sid == a

/-- The merged body of one `mergeIfNeeded` pair: mass sums, momentum-weighted
velocity, position and identity of the heavier operand (`a` on ties). -/
def mergedStar (a b : Star) : Star :=
  let big := if a.mass ≥ b.mass then a else b
  let small := if a.mass ≥ b.mass then b else a
  let m := big.mass + small.mass
  { big with
    mass := m
    vx := (big.vx * big.mass + small.vx * small.mass) / m
    vy := (big.vy * big.mass + small.vy * small.mass) / m }

/-- The guard `dx*dx + dy*dy > mergeDist*mergeDist` of `mergeIfNeeded`. -/
def farApart (a b : Star) (md : ℚ) : Prop :=
  (b.x - a.x) * (b.x - a.x) + (b.y - a.y) * (b.y - a.y) > md * md

instance (a b : Star) (md : ℚ) : Decidable (farApart a b md) := by
  unfold farApart; infer_instance

/-- The mutation `alive[bigIndex] = merged; alive.splice(smallIndex, 1)`. -/
def spliceMerge (alive : List Star) (i j : Nat) : List Star :=
  let a := alive.getD i default
  let b := alive.getD j default
  let bigIndex := if a.mass ≥ b.mass then i else j
  let smallIndex := if a.mass ≥ b.mass then j else i
  (alive.set bigIndex (mergedStar a b)).eraseIdx smallIndex

theorem spliceMerge_length {alive : List Star} {i j : Nat} (hij : i < j)
    (hj : j < alive.length) : (spliceMerge alive i j).length = alive.length - 1 := by
  unfold spliceMerge
  rw [List.length_eraseIdx_of_lt (by simp only [List.length_set]; split <;> omega)]
  simp

/-- Inner `j` loop of `mergeIfNeeded`: in-place splice with `j--` after removal.
The `i < j` guard records the loop invariant of the source (the loop starts at
`j = i + 1` and never lowers `j` below that) and makes termination evident. -/
def mergeInner (md : ℚ) (alive : List Star) (i j : Nat) : List Star :=
  if hj : j < alive.length then
    if hij : i < j then
      if farApart (alive.getD i default) (alive.getD j default) md then
        mergeInner md alive i (j + 1)
      else
        mergeInner md (spliceMerge alive i j) i j
    else alive
  else alive
termination_by alive.length - j
decreasing_by
  · omega
  · rw [spliceMerge_length hij hj]
    omega

theorem mergeInner_length_le (md : ℚ) (alive : List Star) (i j : Nat) :
    (mergeInner md alive i j).length ≤ alive.length := by
  induction alive, i, j using mergeInner.induct md with
  | case1 alive i j hj hij hfar ih =>
    rw [mergeInner, dif_pos hj, dif_pos hij, if_pos hfar]
    exact ih
  | case2 alive i j hj hij hfar ih =>
    rw [mergeInner, dif_pos hj, dif_pos hij, if_neg hfar]
    refine le_trans ih ?_
    rw [spliceMerge_length hij hj]
    omega
  | case3 alive i j hj hij =>
    rw [mergeInner, dif_pos hj, dif_neg hij]
  | case4 alive i j hj =>
    rw [mergeInner, dif_neg hj]

/-- Outer `i` loop of `mergeIfNeeded`. -/
def mergeOuter (md : ℚ) (alive : List Star) (i : Nat) : List Star :=
  if h : i < alive.length then
    mergeOuter md (mergeInner md alive i (i + 1)) (i + 1)
  else alive
termination_by alive.length - i
decreasing_by
  have := mergeInner_length_le md alive i (i + 1)
  omega

/-- Merge pass of the leapfrog engine (`mergeIfNeeded`). -/
def mergeIfNeeded (stars : List Star) (md : ℚ) : List Star :=
  mergeOuter md stars 0

/-- The half-kick applied to one body, reading the shared acceleration maps. -/
def kickOne (M : JsMath) (base : List Star) (G eps dt2 : ℚ) (s : Star) : Star :=
  { s with
    vx := s.vx + ((aget? (accelAll M base G eps).1 s.id).getD 0) * dt2
    vy := s.vy + ((aget? (accelAll M base G eps).2 s.id).getD 0) * dt2 }

/-- The drift applied to one body: the anchor is pinned with zeroed velocity,
every other body advances by `v * dt`. -/
def driftOne (lockSunId : Option String) (dt : ℚ) (s : Star) : Star :=
  if lockActive lockSunId s.id then { s with vx := 0, vy := 0 }
  else { s with x := s.x + s.vx * dt, y := s.y + s.vy * dt }

/-- One kick-drift-kick step (`stepNBodyLeapfrog`). -/
def stepNBodyLeapfrog (M : JsMath) (starsIn : List Star) (p : NBodyParams) : List Star :=
  let kicked := starsIn.map (kickOne M starsIn p.G p.eps (p.dt / 2))
  let drifted := kicked.map (driftOne p.lockSunId p.dt)
  let out := drifted.map (kickOne M drifted p.G p.eps (p.dt / 2))
  mergeIfNeeded out p.mergeDist

/-- Circular-orbit seeding velocity (`setCircularOrbitVelocity`).
JavaScript `Math.sqrt(...) || 1` replaces only a zero radius by 1. -/
def setCircularOrbitVelocity (M : JsMath) (body sun : Star) (G : ℚ) : ℚ × ℚ :=
  let dx := body.x - sun.x
  let dy := body.y - sun.y
  let r0 := M.sqrt (dx * dx + dy * dy)
  let r := if r0 = 0 then 1 else r0
  let v := M.sqrt (G * sun.mass / r)
  (-dy / r * v, dx / r * v)

/-! Euler gravity engine (`GravityEngine.calculateForce`). `this.G` is passed
explicitly; only the force helper is needed by the claims. -/

def calculateForce (M : JsMath) (G : ℚ) (star1 star2 : Star) (pos1 pos2 : ℚ × ℚ) : ℚ × ℚ :=
  let dx := pos2.1 - pos1.1
  let dy := pos2.2 - pos1.2
  let distSquared := dx * dx + dy * dy
  let dist := M.sqrt distSquared
  let minDist : ℚ := 50
  let effectiveDist := max dist minDist
  let effectiveDistSquared := effectiveDist * effectiveDist
  let forceMagnitude := G * star1.mass * star2.mass / effectiveDistSquared
  (dx / effectiveDist * forceMagnitude, dy / effectiveDist * forceMagnitude)

/-! Geometry: point-to-segment distance (`distPointToSegment`), with
`Math.hypot a b` modelled as `sqrt (a*a + b*b)`. -/

def hypotQ (M : JsMath) (a b : ℚ) : ℚ := M.sqrt (a * a + b * b)

def distPointToSegment (M : JsMath) (px py ax ay bx bY : ℚ) : ℚ :=
  let abx := bx - ax
  let aby := bY - ay
  let apx := px - ax
  let apy := py - ay
  let ab2 := abx * abx + aby * aby
  if ab2 = 0 then hypotQ M (px - ax) (py - ay)
  else
    let t0 := (apx * abx + apy * aby) / ab2
    let t := max 0 (min 1 t0)
    let cx := ax + t * abx
    let cy := ay + t * aby
    hypotQ M (px - cx) (py - cy)

/-! App-layer helpers from App.tsx (drag handling and link bookkeeping). -/

def SUN_ID : String := "1"

/-- App.tsx `hasLink`: ordered-pair membership test. -/
def hasLink (links : List GraphLink) (source target : String) : Bool :=
  links.any (fun l => l.source == source && l.target == target)

/-- StarGraph.addLink: an unconditional push. -/
def addLink (links : List GraphLink) (source target : String) (d : Option ℚ) :
    List GraphLink :=
  links ++ [{ source := source, target := target, distance := d }]

/-- The guarded add used by App.tsx (for example in `handleAddStar`):
push only when `hasLink` does not already hold for the ordered pair. -/
def addLinkGuarded (links : List GraphLink) (source target : String) (d : Option ℚ) :
    List GraphLink :=
  if hasLink links source target then links else addLink links source target d

/-- App.tsx `dist` on two points. -/
def dist2d (M : JsMath) (x1 y1 x2 y2 : ℚ) : ℚ :=
  M.sqrt ((x1 - x2) * (x1 - x2) + (y1 - y2) * (y1 - y2))

def BASE_PERIOD_SEC : ℚ := 5

def baseOmega (M : JsMath) : ℚ := M.pi * 2 / BASE_PERIOD_SEC

/-- App.tsx `omegaForRadius` (`Math.pow(minR0 / Math.max(1, r), 1.5)`). -/
def omegaForRadius (M : JsMath) (r minR0 : ℚ) : ℚ :=
  baseOmega M * M.pow (minR0 / max 1 r) (3 / 2)

structure OrbitState where
  radius : List (String × ℚ)
  theta : List (String × ℚ)
  omega : List (String × ℚ)

structure GraphState where
  stars : List Star
  links : List GraphLink

def getSun (stars : List Star) : Option Star :=
  stars.find? (fun s => s.id == SUN_ID)

/-- App.tsx `handleStarMove`: move one body, and when the sun is present and
the moved body is not the sun, update only that body's orbit-cache entries;
its omega is computed from the passed-in (existing) `minR0`. -/
def handleStarMove (M : JsMath) (g : GraphState) (orbit : OrbitState) (minR0 : ℚ)
    (id : String) (x y : ℚ) : GraphState × OrbitState :=
  let nextStars := g.stars.map (fun s => if s.id = id then { s with x := x, y := y } else s)
  let next : GraphState := { g with stars := nextStars }
  match getSun nextStars with
  | some sun =>
    if id ≠ SUN_ID then
      let r := dist2d M x y sun.x sun.y
      let th := M.atan2 (y - sun.y) (x - sun.x)
      (next,
        { radius := aset orbit.radius id r
          theta := aset orbit.theta id th
          omega := aset orbit.omega id (omegaForRadius M r minR0) })
    else (next, orbit)
  | none => (next, orbit)

/-! Shortest-path solver, translated from utils/dijkstra.ts.
JavaScript `Infinity` is `none : Option ℚ`. The unbounded `while` loops are
given a fuel argument; the fuel passed by `dijkstraPath` is proved sufficient
below (each iteration settles a fresh key of the `dist` map, and the
predecessor chain is acyclic), so the model agrees with the source loops. -/

structure AdjEdge where
  toId : String
  w : ℚ
deriving DecidableEq, Repr

structure DijkstraOpts where
  sunId : String
  sunBlockRadius : ℚ
  forbidThroughSun : Bool
  penalty : ℚ
  power : ℚ

/-- JavaScript `new Map(nodes.map(n => [n.id, n])).get k`: the last node wins. -/
def byId (nodes : List Star) (k : String) : Option Star :=
  nodes.reverse.find? (fun n => n.id == k)

/-- One `adj.get(k)!.push(e)`. -/
def addAdjEdge (adj : List (String × List AdjEdge)) (k : String) (e : AdjEdge) :
    List (String × List AdjEdge) :=
  aset adj k (((aget? adj k).getD []) ++ [e])

/-- The base edge weight `power === 1 ? d : Math.pow(d, power)` of one link,
with `d` the Euclidean distance of the resolved endpoints at call time. -/
def linkWeight (M : JsMath) (o : DijkstraOpts) (a b : Star) : ℚ :=
  if o.power = 1 then hypotQ M (a.x - b.x) (a.y - b.y)
  else M.pow (hypotQ M (a.x - b.x) (a.y - b.y)) o.power

/-- The exclusion-zone decision for one link: `none` drops the edge
(`forbidThroughSun`), otherwise the weight, plus the penalty inside the zone. -/
def linkWOpt (M : JsMath) (o : DijkstraOpts) (sun : Option Star) (a b : Star) : Option ℚ :=
  match sun with
  | some s =>
    if distPointToSegment M s.x s.y a.x a.y b.x b.y < o.sunBlockRadius then
      if o.forbidThroughSun then none else some (linkWeight M o a b + o.penalty)
    else some (linkWeight M o a b)
  | none => some (linkWeight M o a b)

/-- Body of the edge-construction loop of `dijkstraPath` for one link. -/
def processLink (M : JsMath) (nodes : List Star) (o : DijkstraOpts) (sun : Option Star)
    (adj : List (String × List AdjEdge)) (e : GraphLink) : List (String × List AdjEdge) :=
  match byId nodes e.source, byId nodes e.target with
  | some a, some b =>
    if !(aget? adj a.id).isSome || !(aget? adj b.id).isSome then adj
    else
      match linkWOpt M o sun a b with
      | none => adj
      | some w' =>
        addAdjEdge (addAdjEdge adj a.id { toId := b.id, w := w' }) b.id { toId := a.id, w := w' }
  | _, _ => adj

def buildAdj (M : JsMath) (nodes : List Star) (links : List GraphLink) (o : DijkstraOpts) :
    List (String × List AdjEdge) :=
  links.foldl (processLink M nodes o (byId nodes o.sunId))
    (nodes.foldl (fun m n => aset m n.id []) [])

/-- Strict comparison with `none = +∞` (`Infinity < Infinity` is false). -/
def ltC : Option ℚ → Option ℚ → Bool
  | some a, some b => decide (a < b)
  | some _, none => true
  | none, _ => false

/-- Addition with `none = +∞`. -/
def addC : Option ℚ → ℚ → Option ℚ
  | some a, w => some (a + w)
  | none, _ => none

/-- The read `dist.get(k) ?? Infinity`. -/
def getDist (dist : List (String × Option ℚ)) (k : String) : Option ℚ :=
  (aget? dist k).getD none

/-- The read `prev.get(k) ?? null`. -/
def getPrev (prev : List (String × Option String)) (k : String) : Option String :=
  (aget? prev k).getD none

/-- One entry of the linear minimum scan (`if (used.has(id)) continue; if (d < best) ...`). -/
def selStep (used : List String) (acc : Option String × Option ℚ)
    (p : String × Option ℚ) : Option String × Option ℚ :=
  if p.1 ∈ used then acc
  else if ltC p.2 acc.2 then (some p.1, p.2) else acc

/-- The linear minimum scan over the `dist` map, skipping used ids. -/
def selectMin (entries : List (String × Option ℚ)) (used : List String) :
    Option String × Option ℚ :=
  entries.foldl (selStep used) (none, none)

/-- One relaxation (`const nd = (dist.get(v) ?? Infinity) + ed.w; if (nd < ...) ...`). -/
def relaxStep (v : String)
    (dp : List (String × Option ℚ) × List (String × Option String)) (ed : AdjEdge) :
    List (String × Option ℚ) × List (String × Option String) :=
  let nd := addC (getDist dp.1 v) ed.w
  if ltC nd (getDist dp.1 ed.toId) then
    (aset dp.1 ed.toId nd, aset dp.2 ed.toId (some v))
  else dp

/-- The relaxation loop over the selected node's adjacency list. -/
def relaxEdges (v : String) (edges : List AdjEdge)
    (dp : List (String × Option ℚ) × List (String × Option String)) :
    List (String × Option ℚ) × List (String × Option String) :=
  edges.foldl (relaxStep v) dp

/-- The main `while (true)` loop of `dijkstraPath`. -/
def dijkLoop (adj : List (String × List AdjEdge)) (goalId : String) :
    Nat → List (String × Option ℚ) → List (String × Option String) → List String →
    List (String × Option ℚ) × List (String × Option String)
  | 0, dist, prev, _ => (dist, prev)
  | fuel + 1, dist, prev, used =>
    match selectMin dist used with
    | (none, _) => (dist, prev)
    | (some v, _) =>
      if v = goalId then (dist, prev)
      else
        let dp := relaxEdges v ((aget? adj v).getD []) (dist, prev)
        dijkLoop adj goalId fuel dp.1 dp.2 (used ++ [v])

/-- The path-reconstruction loop `while (cur) { path.push(cur); cur = prev.get(cur) ?? null }`
(an empty-string id is falsy in the source). -/
def buildPath (prev : List (String × Option String)) :
    Nat → Option String → List String → List String
  | 0, _, acc => acc
  | fuel + 1, cur?, acc =>
    match cur? with
    | none => acc
    | some cur =>
      if cur = "" then acc
      else buildPath prev fuel (getPrev prev cur) (acc ++ [cur])

structure PathResult where
  path : List String
  cost : Option ℚ
deriving DecidableEq, Repr

def dijkstraPath (M : JsMath) (nodes : List Star) (links : List GraphLink)
    (startId goalId : String) (o : DijkstraOpts) : PathResult :=
  let adj := buildAdj M nodes links o
  let dist0 := nodes.foldl (fun m n => aset m n.id (none : Option ℚ)) []
  let prev0 := nodes.foldl (fun m n => aset m n.id (none : Option String)) []
  let dist1 := aset dist0 startId (some 0)
  let dp := dijkLoop adj goalId (dist1.length + 1) dist1 prev0 []
  match getDist dp.1 goalId with
  | none => { path := [], cost := none }
  | some c =>
    { path := (buildPath dp.2 (dp.1.length + 1) (some goalId) []).reverse
      cost := some c }

/-! A concrete, fully computable instance of the platform primitives, exact on
perfect rational squares; used to evaluate the model on concrete inputs. -/

def ratSqrt (q : ℚ) : ℚ :=
  if q ≤ 0 then 0 else (Nat.sqrt q.num.toNat : ℚ) / (Nat.sqrt q.den : ℚ)

def exM : JsMath :=
  { sqrt := ratSqrt, pow := fun _ _ => 0, atan2 := fun _ _ => 0, pi := 0 }

theorem ratSqrt_nonneg (q : ℚ) : 0 ≤ ratSqrt q := by
  unfold ratSqrt
  split
  · exact le_refl 0
  · positivity

/-! Unfolding equations for the merge loops. -/

theorem mergeInner_oob {md : ℚ} {alive : List Star} {i j : Nat}
    (h : ¬ j < alive.length) : mergeInner md alive i j = alive := by
  rw [mergeInner, dif_neg h]

theorem mergeInner_stop {md : ℚ} {alive : List Star} {i j : Nat}
    (hj : j < alive.length) (h : ¬ i < j) : mergeInner md alive i j = alive := by
  rw [mergeInner, dif_pos hj, dif_neg h]

theorem mergeInner_far {md : ℚ} {alive : List Star} {i j : Nat}
    (hj : j < alive.length) (hij : i < j)
    (h : farApart (alive.getD i default) (alive.getD j default) md) :
    mergeInner md alive i j = mergeInner md alive i (j + 1) := by
  rw [mergeInner, dif_pos hj, dif_pos hij, if_pos h]

theorem mergeInner_merge {md : ℚ} {alive : List Star} {i j : Nat}
    (hj : j < alive.length) (hij : i < j)
    (h : ¬ farApart (alive.getD i default) (alive.getD j default) md) :
    mergeInner md alive i j = mergeInner md (spliceMerge alive i j) i j := by
  rw [mergeInner, dif_pos hj, dif_pos hij, if_neg h]

theorem mergeOuter_stop {md : ℚ} {alive : List Star} {i : Nat}
    (h : ¬ i < alive.length) : mergeOuter md alive i = alive := by
  rw [mergeOuter, dif_neg h]

theorem mergeOuter_step {md : ℚ} {alive : List Star} {i : Nat}
    (h : i < alive.length) :
    mergeOuter md alive i = mergeOuter md (mergeInner md alive i (i + 1)) (i + 1) := by
  rw [mergeOuter, dif_pos h]

/-! Invariants of the merge pass. -/

theorem mergedStar_id (a b : Star) :
    (mergedStar a b).id = (if a.mass ≥ b.mass then a else b).id := by
  unfold mergedStar
  split <;> rfl

theorem mergedStar_pos (a b : Star) :
    (mergedStar a b).x = (if a.mass ≥ b.mass then a else b).x ∧
    (mergedStar a b).y = (if a.mass ≥ b.mass then a else b).y := by
  unfold mergedStar
  split <;> exact ⟨rfl, rfl⟩

theorem mergedStar_mass (a b : Star) :
    (mergedStar a b).mass = a.mass + b.mass := by
  unfold mergedStar
  split
  · rfl
  · exact add_comm _ _

theorem mem_spliceMerge {alive : List Star} {i j : Nat} {s : Star}
    (hs : s ∈ spliceMerge alive i j) :
    s ∈ alive ∨ s = mergedStar (alive.getD i default) (alive.getD j default) := by
  unfold spliceMerge at hs
  have h1 := List.mem_of_mem_eraseIdx hs
  exact List.mem_or_eq_of_mem_set h1

/-- Any pointwise property that is closed under merging two members is
preserved by the inner merge loop. -/
theorem mergeInner_forall (md : ℚ) (P : Star → Prop)
    (hP : ∀ a b : Star, P a → P b → P (mergedStar a b)) :
    ∀ (alive : List Star) (i j : Nat), (∀ s ∈ alive, P s) →
      ∀ s ∈ mergeInner md alive i j, P s := by
  intro alive i j
  induction alive, i, j using mergeInner.induct md with
  | case1 alive i j hj hij hfar ih =>
    intro hall
    rw [mergeInner_far hj hij hfar]
    exact ih hall
  | case2 alive i j hj hij hfar ih =>
    intro hall
    rw [mergeInner_merge hj hij hfar]
    refine ih ?_
    intro s hs
    rcases mem_spliceMerge hs with h | h
    · exact hall s h
    · subst h
      refine hP _ _ (hall _ ?_) (hall _ ?_)
      · have hi : i < alive.length := lt_trans hij hj
        rw [List.getD_eq_getElem?_getD, List.getElem?_eq_getElem hi]
        exact List.getElem_mem _
      · rw [List.getD_eq_getElem?_getD, List.getElem?_eq_getElem hj]
        exact List.getElem_mem _
  | case3 alive i j hj hij =>
    intro hall
    rw [mergeInner_stop hj hij]
    exact hall
  | case4 alive i j hj =>
    intro hall
    rw [mergeInner_oob hj]
    exact hall

theorem mergeOuter_forall (md : ℚ) (P : Star → Prop)
    (hP : ∀ a b : Star, P a → P b → P (mergedStar a b)) :
    ∀ (alive : List Star) (i : Nat), (∀ s ∈ alive, P s) →
      ∀ s ∈ mergeOuter md alive i, P s := by
  intro alive i
  induction alive, i using mergeOuter.induct md with
  | case1 alive i h ih =>
    intro hall
    rw [mergeOuter_step h]
    exact ih (mergeInner_forall md P hP alive i (i + 1) hall)
  | case2 alive i h =>
    intro hall
    rw [mergeOuter_stop h]
    exact hall

theorem mergeIfNeeded_forall (md : ℚ) (P : Star → Prop)
    (hP : ∀ a b : Star, P a → P b → P (mergedStar a b))
    (stars : List Star) (hall : ∀ s ∈ stars, P s) :
    ∀ s ∈ mergeIfNeeded stars md, P s :=
  mergeOuter_forall md P hP stars 0 hall

/-! Mass-sum preservation of the merge pass. -/

def totalMass (l : List Star) : ℚ := (l.map Star.mass).sum

theorem sum_set_rat (l : List ℚ) (n : Nat) (x : ℚ) (h : n < l.length) :
    (l.set n x).sum = l.sum - l.getD n 0 + x := by
  induction l generalizing n with
  | nil => simp at h
  | cons hd tl ih =>
    cases n with
    | zero => simp [List.set]; ring
    | succ m =>
      have hm : m < tl.length := by simpa using h
      simp only [List.set, List.sum_cons, ih m hm, List.getD_eq_getElem?_getD,
        List.getElem?_cons_succ]
      ring

theorem sum_eraseIdx_rat (l : List ℚ) (n : Nat) (h : n < l.length) :
    (l.eraseIdx n).sum = l.sum - l.getD n 0 := by
  induction l generalizing n with
  | nil => simp at h
  | cons hd tl ih =>
    cases n with
    | zero => simp [List.eraseIdx]
    | succ m =>
      have hm : m < tl.length := by simpa using h
      simp only [List.eraseIdx, List.sum_cons, ih m hm, List.getD_eq_getElem?_getD,
        List.getElem?_cons_succ]
      ring

theorem map_eraseIdx' {α β : Type} (f : α → β) (l : List α) (n : Nat) :
    (l.eraseIdx n).map f = (l.map f).eraseIdx n := by
  induction l generalizing n with
  | nil => simp
  | cons hd tl ih => cases n <;> simp [List.eraseIdx, ih]

theorem totalMass_spliceMerge {alive : List Star} {i j : Nat}
    (hij : i < j) (hj : j < alive.length) :
    totalMass (spliceMerge alive i j) = totalMass alive := by
  have hi : i < alive.length := lt_trans hij hj
  simp only [spliceMerge, totalMass]
  set a := alive.getD i default with ha
  set b := alive.getD j default with hb
  set bigIndex := if a.mass ≥ b.mass then i else j with hbi
  set smallIndex := if a.mass ≥ b.mass then j else i with hsi
  have hbl : bigIndex < alive.length := by rw [hbi]; split <;> assumption
  have hsl : smallIndex < (alive.set bigIndex (mergedStar a b)).length := by
    rw [List.length_set, hsi]; split <;> assumption
  have hne : bigIndex ≠ smallIndex := by
    rw [hbi, hsi]; split <;> omega
  rw [map_eraseIdx', List.map_set]
  rw [sum_eraseIdx_rat _ _ (by simpa using hsl)]
  rw [sum_set_rat _ _ _ (by simpa using hbl)]
  have hgb : ((alive.map Star.mass).set bigIndex (mergedStar a b).mass).getD smallIndex 0
      = (alive.map Star.mass).getD smallIndex 0 := by
    simp only [List.getD_eq_getElem?_getD]
    rw [List.getElem?_set_ne hne]
  rw [hgb]
  have hga : (alive.map Star.mass).getD bigIndex 0
        = (alive.getD bigIndex default).mass := by
    simp only [List.getD_eq_getElem?_getD, List.getElem?_eq_getElem hbl,
      List.getElem?_eq_getElem (by simpa using hbl : bigIndex < (alive.map Star.mass).length)]
    simp
  have hgs : (alive.map Star.mass).getD smallIndex 0
        = (alive.getD smallIndex default).mass := by
    have hsl' : smallIndex < alive.length := by rw [hsi]; split <;> assumption
    simp only [List.getD_eq_getElem?_getD, List.getElem?_eq_getElem hsl',
      List.getElem?_eq_getElem (by simpa using hsl' : smallIndex < (alive.map Star.mass).length)]
    simp
  rw [hga, hgs, mergedStar_mass]
  have hcase : (alive.getD bigIndex default).mass + (alive.getD smallIndex default).mass
      = a.mass + b.mass := by
    rw [hbi, hsi]
    split
    · rw [← ha, ← hb]
    · rw [← ha, ← hb]; ring
  have : (alive.map Star.mass).sum - (alive.getD bigIndex default).mass
        + (a.mass + b.mass) - (alive.getD smallIndex default).mass
      = (alive.map Star.mass).sum + ((a.mass + b.mass)
        - ((alive.getD bigIndex default).mass + (alive.getD smallIndex default).mass)) := by
    ring
  rw [this, hcase]
  ring

theorem mergeInner_totalMass (md : ℚ) :
    ∀ (alive : List Star) (i j : Nat),
      totalMass (mergeInner md alive i j) = totalMass alive := by
  intro alive i j
  induction alive, i, j using mergeInner.induct md with
  | case1 alive i j hj hij hfar ih =>
    rw [mergeInner_far hj hij hfar]; exact ih
  | case2 alive i j hj hij hfar ih =>
    rw [mergeInner_merge hj hij hfar, ih, totalMass_spliceMerge hij hj]
  | case3 alive i j hj hij => rw [mergeInner_stop hj hij]
  | case4 alive i j hj => rw [mergeInner_oob hj]

theorem mergeOuter_totalMass (md : ℚ) :
    ∀ (alive : List Star) (i : Nat),
      totalMass (mergeOuter md alive i) = totalMass alive := by
  intro alive i
  induction alive, i using mergeOuter.induct md with
  | case1 alive i h ih =>
    rw [mergeOuter_step h, ih, mergeInner_totalMass]
  | case2 alive i h => rw [mergeOuter_stop h]

theorem mergeIfNeeded_totalMass (stars : List Star) (md : ℚ) :
    totalMass (mergeIfNeeded stars md) = totalMass stars :=
  mergeOuter_totalMass md stars 0

/-! Concrete inputs used by witnesses and counterexamples. All square roots
hit by these inputs are perfect rational squares, where `ratSqrt` agrees with
the real square root. -/

def pairDist2 (p1 p2 : ℚ × ℚ) : ℚ :=
  (p2.1 - p1.1) * (p2.1 - p1.1) + (p2.2 - p1.2) * (p2.2 - p1.2)

def C1sun : Star :=
  { id := "1", name := "sun", mass := 1/10, x := 0, y := 0, vx := 0, vy := 0, color := none }

def C1planet : Star :=
  { id := "2", name := "planet", mass := 1, x := 3, y := 4, vx := 0, vy := 0, color := none }

def C1params : NBodyParams :=
  { G := 125, eps := 0, dt := 1, mergeDist := 0, lockSunId := some "1" }

/-- Pointwise facts about the kick and drift. -/
theorem kickOne_id (M : JsMath) (base : List Star) (G eps d : ℚ) (s : Star) :
    (kickOne M base G eps d s).id = s.id := rfl

theorem kickOne_x (M : JsMath) (base : List Star) (G eps d : ℚ) (s : Star) :
    (kickOne M base G eps d s).x = s.x := rfl

theorem kickOne_y (M : JsMath) (base : List Star) (G eps d : ℚ) (s : Star) :
    (kickOne M base G eps d s).y = s.y := rfl

theorem kickOne_mass (M : JsMath) (base : List Star) (G eps d : ℚ) (s : Star) :
    (kickOne M base G eps d s).mass = s.mass := rfl

theorem driftOne_id (l : Option String) (d : ℚ) (s : Star) :
    (driftOne l d s).id = s.id := by
  unfold driftOne; split <;> rfl

theorem driftOne_mass (l : Option String) (d : ℚ) (s : Star) :
    (driftOne l d s).mass = s.mass := by
  unfold driftOne; split <;> rfl

theorem driftOne_lock_pos (l : Option String) (d : ℚ) (s : Star)
    (h : lockActive l s.id = true) :
    (driftOne l d s).x = s.x ∧ (driftOne l d s).y = s.y := by
  unfold driftOne
  rw [if_pos h]
  exact ⟨rfl, rfl⟩

/-- A far-apart pair passes through the merge loop untouched. -/
theorem mergeIfNeeded_pair_far (a b : Star) (md : ℚ) (h : farApart a b md) :
    mergeIfNeeded [a, b] md = [a, b] := by
  have s1 : mergeOuter md [a, b] 0 = mergeOuter md (mergeInner md [a, b] 0 1) 1 := by
    apply mergeOuter_step; simp
  have s2 : mergeInner md [a, b] 0 1 = mergeInner md [a, b] 0 2 := by
    apply mergeInner_far
    · simp
    · simp
    · exact h
  have s3 : mergeInner md [a, b] 0 2 = [a, b] := by apply mergeInner_oob; simp
  have s4 : mergeOuter md [a, b] 1 = mergeOuter md (mergeInner md [a, b] 1 2) 2 := by
    apply mergeOuter_step; simp
  have s5 : mergeInner md [a, b] 1 2 = [a, b] := by apply mergeInner_oob; simp
  have s6 : mergeOuter md [a, b] 2 = [a, b] := by apply mergeOuter_stop; simp
  rw [mergeIfNeeded, s1, s2, s3, s4, s5, s6]

/-- The leapfrog output bodies on the concrete two-body input. -/
def C1sunOut : Star :=
  { id := "1", name := "sun", mass := 1/10, x := 0, y := 0,
    vx := 600/361, vy := 800/361, color := none }

def C1planetOut : Star :=
  { id := "2", name := "planet", mass := 1, x := 57/20, y := 19/5,
    vx := -2283/7220, vy := -761/1805, color := none }

theorem stepPairRun :
    stepNBodyLeapfrog exM [C1sun, C1planet] C1params = [C1sunOut, C1planetOut] := by
  have h1 : stepNBodyLeapfrog exM [C1sun, C1planet] C1params
      = mergeIfNeeded [C1sunOut, C1planetOut] 0 := by with_unfolding_all rfl
  rw [h1, mergeIfNeeded_pair_far _ _ _ (by with_unfolding_all decide)]

set_option maxRecDepth 4000 in
/-- C1. The claim says the anchor body's position AND velocity are unchanged by
one leapfrog step. Velocity is not: the drift zeroes the anchor's velocity and
the second half-kick then adds half a step of acceleration, so on this
two-body input the anchor (input velocity `(0,0)`) leaves with velocity
`(600/361, 800/361)`. -/
theorem C1_counterexample :
    ¬ (∀ s ∈ stepNBodyLeapfrog exM [C1sun, C1planet] C1params,
        s.id = C1sun.id → s.vx = C1sun.vx ∧ s.vy = C1sun.vy) := by
  rw [stepPairRun]
  with_unfolding_all decide

/-- C1 (amended). With a unique anchor body selected by `lockSunId`, every
output body bearing the anchor id keeps the anchor's input position; the
anchor's velocity is zeroed in the drift and then receives only the second
half-kick, so it is not preserved in general (see the counterexample). -/
theorem C1_theorem (M : JsMath) (stars : List Star) (p : NBodyParams) (anchor s : Star)
    (hmem : anchor ∈ stars) (huniq : ∀ t ∈ stars, t.id = anchor.id → t = anchor)
    (hlock : p.lockSunId = some anchor.id) (hne : anchor.id ≠ "")
    (hs : s ∈ stepNBodyLeapfrog M stars p) (hsid : s.id = anchor.id) :
    s.x = anchor.x ∧ s.y = anchor.y := by
  revert hsid
  simp only [stepNBodyLeapfrog] at hs
  refine mergeIfNeeded_forall _ (fun t => t.id = anchor.id → t.x = anchor.x ∧ t.y = anchor.y)
    ?_ _ ?_ s hs
  · intro a b ha hb hid
    rw [mergedStar_id] at hid
    obtain ⟨hx, hy⟩ := mergedStar_pos a b
    rw [hx, hy]
    by_cases hm : a.mass ≥ b.mass
    · rw [if_pos hm] at hid ⊢; exact ha hid
    · rw [if_neg hm] at hid ⊢; exact hb hid
  · intro t ht
    simp only [List.mem_map] at ht
    obtain ⟨t2, ⟨t1, ⟨t0, ht0, rfl⟩, rfl⟩, rfl⟩ := ht
    intro hid
    rw [kickOne_id, driftOne_id, kickOne_id] at hid
    have ht0a : t0 = anchor := huniq t0 ht0 hid
    subst ht0a
    have hlockT : lockActive p.lockSunId
        (kickOne M stars p.G p.eps (p.dt / 2) t0).id = true := by
      rw [kickOne_id, hlock]
      simp [lockActive, hne]
    obtain ⟨hdx, hdy⟩ := driftOne_lock_pos p.lockSunId p.dt _ hlockT
    rw [kickOne_x, kickOne_y, hdx, hdy, kickOne_x, kickOne_y]
    exact ⟨rfl, rfl⟩

set_option maxRecDepth 4000 in
/-- C1 (amended) witness at the two-body example: the output body carrying the
anchor id sits at the anchor's input position. -/
theorem C1_theorem_witness :
    ((stepNBodyLeapfrog exM [C1sun, C1planet] C1params).getD 0 default).x = C1sun.x ∧
    ((stepNBodyLeapfrog exM [C1sun, C1planet] C1params).getD 0 default).y = C1sun.y :=
  C1_theorem exM [C1sun, C1planet] C1params C1sun
    ((stepNBodyLeapfrog exM [C1sun, C1planet] C1params).getD 0 default)
    (by with_unfolding_all decide) (by with_unfolding_all decide) rfl (by decide)
    (by rw [stepPairRun]; with_unfolding_all decide)
    (by rw [stepPairRun]; with_unfolding_all decide)

/-- C2. Merging a close pair (separation at most `mergeDist`) yields exactly
one body: mass `m1+m2`, momentum-weighted velocity, position and id of the
heavier operand (the first operand on ties); the lighter body's id is gone. -/
theorem C2_theorem (a b : Star) (md : ℚ) (hid : a.id ≠ b.id)
    (hclose : (b.x - a.x) * (b.x - a.x) + (b.y - a.y) * (b.y - a.y) ≤ md * md) :
    mergeIfNeeded [a, b] md =
      [{ (if a.mass ≥ b.mass then a else b) with
          mass := a.mass + b.mass
          vx := (a.mass * a.vx + b.mass * b.vx) / (a.mass + b.mass)
          vy := (a.mass * a.vy + b.mass * b.vy) / (a.mass + b.mass) }] ∧
    (if a.mass ≥ b.mass then b else a).id ∉ (mergeIfNeeded [a, b] md).map Star.id := by
  have hfar : ¬ farApart a b md := not_lt.mpr hclose
  have hsp : spliceMerge [a, b] 0 1 = [mergedStar a b] := by
    simp only [spliceMerge]
    have hg0 : ([a, b] : List Star).getD 0 default = a := rfl
    have hg1 : ([a, b] : List Star).getD 1 default = b := rfl
    rw [hg0, hg1]
    by_cases hm : a.mass ≥ b.mass
    · rw [if_pos hm, if_pos hm]; rfl
    · rw [if_neg hm, if_neg hm]; rfl
  have hrun : mergeIfNeeded [a, b] md = [mergedStar a b] := by
    have s1 : mergeOuter md [a, b] 0 = mergeOuter md (mergeInner md [a, b] 0 1) 1 := by
      apply mergeOuter_step; simp
    have s2 : mergeInner md [a, b] 0 1 = mergeInner md (spliceMerge [a, b] 0 1) 0 1 := by
      apply mergeInner_merge
      · simp
      · simp
      · exact hfar
    have s3 : mergeInner md [mergedStar a b] 0 1 = [mergedStar a b] := by
      apply mergeInner_oob; simp
    have s4 : mergeOuter md [mergedStar a b] 1 = [mergedStar a b] := by
      apply mergeOuter_stop; simp
    rw [mergeIfNeeded, s1, s2, hsp, s3, s4]
  rw [hrun]
  constructor
  · unfold mergedStar
    by_cases hm : a.mass ≥ b.mass
    · simp only [if_pos hm, List.cons.injEq, and_true, Star.mk.injEq]
      norm_num
      constructor
      · ring
      · ring
    · simp only [if_neg hm, List.cons.injEq, and_true, Star.mk.injEq]
      norm_num
      refine ⟨by ring, by ring, by ring⟩
  · rw [List.map_singleton, mergedStar_id]
    by_cases hm : a.mass ≥ b.mass
    · rw [if_pos hm, if_pos hm]
      simpa using fun h => hid h.symm
    · rw [if_neg hm, if_neg hm]
      simpa using hid

def C2a : Star :=
  { id := "x", name := "x", mass := 2, x := 0, y := 0, vx := 1, vy := 0, color := none }

def C2b : Star :=
  { id := "y", name := "y", mass := 6, x := 3, y := 0, vx := 5, vy := 4, color := none }

/-- C2 witness: masses 2 and 6 at distance 3 with `mergeDist = 3` produce one
body of mass 8 at the heavier body's position with velocity `(4, 3)`. -/
theorem C2_theorem_witness :
    mergeIfNeeded [C2a, C2b] 3 =
      [{ (if C2a.mass ≥ C2b.mass then C2a else C2b) with
          mass := C2a.mass + C2b.mass
          vx := (C2a.mass * C2a.vx + C2b.mass * C2b.vx) / (C2a.mass + C2b.mass)
          vy := (C2a.mass * C2a.vy + C2b.mass * C2b.vy) / (C2a.mass + C2b.mass) }] ∧
    (if C2a.mass ≥ C2b.mass then C2b else C2a).id ∉ (mergeIfNeeded [C2a, C2b] 3).map Star.id :=
  C2_theorem C2a C2b 3 (by decide) (by with_unfolding_all decide)

/-- C10 (implicit invariant). One leapfrog step conserves the total mass and
introduces no new body ids. -/
theorem C10_theorem (M : JsMath) (stars : List Star) (p : NBodyParams) (s : Star)
    (hnodup : (stars.map Star.id).Nodup)
    (hs : s ∈ stepNBodyLeapfrog M stars p) :
    totalMass (stepNBodyLeapfrog M stars p) = totalMass stars ∧
    s.id ∈ stars.map Star.id := by
  constructor
  · simp only [stepNBodyLeapfrog]
    rw [mergeIfNeeded_totalMass]
    unfold totalMass
    simp only [List.map_map]
    congr 1
    apply List.map_congr_left
    intro t ht
    simp only [Function.comp]
    rw [kickOne_mass, driftOne_mass, kickOne_mass]
  · simp only [stepNBodyLeapfrog] at hs
    refine mergeIfNeeded_forall _ (fun t => t.id ∈ stars.map Star.id) ?_ _ ?_ s hs
    · intro a b ha hb
      rw [mergedStar_id]
      split
      · exact ha
      · exact hb
    · intro t ht
      simp only [List.mem_map] at ht
      obtain ⟨t2, ⟨t1, ⟨t0, ht0, rfl⟩, rfl⟩, rfl⟩ := ht
      refine List.mem_map.mpr ⟨t0, ht0, ?_⟩
      rw [kickOne_id, driftOne_id, kickOne_id]

set_option maxRecDepth 4000 in
/-- C10 witness at the two-body example. -/
theorem C10_theorem_witness :
    totalMass (stepNBodyLeapfrog exM [C1sun, C1planet] C1params) =
      totalMass [C1sun, C1planet] ∧
    ((stepNBodyLeapfrog exM [C1sun, C1planet] C1params).getD 0 default).id ∈
      [C1sun, C1planet].map Star.id :=
  C10_theorem exM [C1sun, C1planet] C1params
    ((stepNBodyLeapfrog exM [C1sun, C1planet] C1params).getD 0 default)
    (by decide) (by rw [stepPairRun]; with_unfolding_all decide)

def C3a : Star :=
  { id := "a", name := "a", mass := 50, x := 0, y := 0, vx := 0, vy := 0, color := none }

def C3b : Star :=
  { id := "b", name := "b", mass := 50, x := 3, y := 4, vx := 0, vy := 0, color := none }

set_option maxRecDepth 8000 in
/-- C3. The claim says the pairwise force magnitude is
`G*m1*m2 / max(r,50)^2` for all separations `r`, including `r < 50`. At
separation 5 (a true distance: `5*5 = 3*3+4*4`) the computed force is
`(3/50, 4/50)*F`, whose squared magnitude is `F^2/100`, not `F^2`: the offset
is divided by the clamped distance, not normalised to a unit vector. -/
theorem C3_counterexample :
    (5 : ℚ) * 5 = (3 - 0) * (3 - 0) + (4 - 0) * (4 - 0) ∧
    (calculateForce exM 1 C3a C3b (0, 0) (3, 4)).1 ^ 2 +
        (calculateForce exM 1 C3a C3b (0, 0) (3, 4)).2 ^ 2
      ≠ (1 * C3a.mass * C3b.mass / (max (5 : ℚ) 50 * max (5 : ℚ) 50)) ^ 2 := by
  constructor
  · norm_num
  · with_unfolding_all decide

/-- C3 (amended). The pairwise force is the offset `(dx, dy)` scaled by
`G*m1*m2 / max(r,50)^3`; its magnitude is therefore the claimed
`G*m1*m2 / max(r,50)^2` exactly when `r ≥ 50` (second conjunct, with the
squared magnitude written against `r^2 = dx^2+dy^2`), and is smaller by the
factor `r/50` at close range. -/
theorem C3_theorem (M : JsMath) (G : ℚ) (s1 s2 : Star) (p1 p2 : ℚ × ℚ) :
    calculateForce M G s1 s2 p1 p2 =
      ((p2.1 - p1.1) * (G * s1.mass * s2.mass / max (M.sqrt (pairDist2 p1 p2)) 50 ^ 3),
       (p2.2 - p1.2) * (G * s1.mass * s2.mass / max (M.sqrt (pairDist2 p1 p2)) 50 ^ 3)) ∧
    (M.sqrt (pairDist2 p1 p2) ^ 2 = pairDist2 p1 p2 → 50 ≤ M.sqrt (pairDist2 p1 p2) →
      (calculateForce M G s1 s2 p1 p2).1 ^ 2 + (calculateForce M G s1 s2 p1 p2).2 ^ 2
        = (G * s1.mass * s2.mass / pairDist2 p1 p2) ^ 2) := by
  have halg : ∀ dx N e : ℚ, dx / e * (N / (e * e)) = dx * (N / e ^ 3) := by
    intro dx N e
    ring
  have hfx : calculateForce M G s1 s2 p1 p2 =
      ((p2.1 - p1.1) * (G * s1.mass * s2.mass / max (M.sqrt (pairDist2 p1 p2)) 50 ^ 3),
       (p2.2 - p1.2) * (G * s1.mass * s2.mass / max (M.sqrt (pairDist2 p1 p2)) 50 ^ 3)) := by
    simp only [calculateForce, pairDist2]
    rw [Prod.mk.injEq]
    exact ⟨halg _ _ _, halg _ _ _⟩
  refine ⟨hfx, ?_⟩
  intro hsq hge
  rw [hfx]
  have heff : max (M.sqrt (pairDist2 p1 p2)) 50 = M.sqrt (pairDist2 p1 p2) :=
    max_eq_left hge
  have hr0 : M.sqrt (pairDist2 p1 p2) ≠ 0 := by
    intro h0
    rw [h0] at hge
    norm_num at hge
  have hkey : ((p2.1 - p1.1) * (G * s1.mass * s2.mass / max (M.sqrt (pairDist2 p1 p2)) 50 ^ 3)) ^ 2
      + ((p2.2 - p1.2) * (G * s1.mass * s2.mass / max (M.sqrt (pairDist2 p1 p2)) 50 ^ 3)) ^ 2
      = pairDist2 p1 p2 *
        (G * s1.mass * s2.mass / max (M.sqrt (pairDist2 p1 p2)) 50 ^ 3) ^ 2 := by
    unfold pairDist2
    ring
  rw [hkey, heff]
  set r := M.sqrt (pairDist2 p1 p2) with hr
  rw [← hsq]
  field_simp
  ring

/-- C3 (amended) witness at separation 50 (`50*50 = 30*30+40*40`), where the
clamp is inactive and the claimed magnitude law holds. -/
theorem C3_theorem_witness :
    calculateForce exM 1 C3a C3b (0, 0) (30, 40) =
      ((30 - 0) * (1 * C3a.mass * C3b.mass / max (ratSqrt (pairDist2 (0, 0) (30, 40))) 50 ^ 3),
       (40 - 0) * (1 * C3a.mass * C3b.mass / max (ratSqrt (pairDist2 (0, 0) (30, 40))) 50 ^ 3)) ∧
    (ratSqrt (pairDist2 (0, 0) (30, 40)) ^ 2 = pairDist2 (0, 0) (30, 40) →
      50 ≤ ratSqrt (pairDist2 (0, 0) (30, 40)) →
      (calculateForce exM 1 C3a C3b (0, 0) (30, 40)).1 ^ 2 +
          (calculateForce exM 1 C3a C3b (0, 0) (30, 40)).2 ^ 2
        = (1 * C3a.mass * C3b.mass / pairDist2 (0, 0) (30, 40)) ^ 2) :=
  C3_theorem exM 1 C3a C3b (0, 0) (30, 40)

def C4sun : Star :=
  { id := "1", name := "sun", mass := 1/8, x := 0, y := 0, vx := 0, vy := 0, color := none }

def C4body : Star :=
  { id := "2", name := "body", mass := 1, x := 3/10, y := 4/10, vx := 0, vy := 0, color := none }

/-- C4. The claim floors the divisor at 1 (`max 1 r`). The code's `sqrt(...) || 1`
replaces only `r = 0`. At true radius `1/2` (`(1/2)*(1/2)` is the squared
separation) with `G*m = 1/8`, the returned vector is `(-2/5, 3/10)` with
squared magnitude `1/4 = G*m/r`, not the claimed `G*m/max(1,r) = 1/8`. -/
theorem C4_counterexample :
    ratSqrt (pairDist2 (C4sun.x, C4sun.y) (C4body.x, C4body.y)) *
        ratSqrt (pairDist2 (C4sun.x, C4sun.y) (C4body.x, C4body.y))
      = pairDist2 (C4sun.x, C4sun.y) (C4body.x, C4body.y) ∧
    (setCircularOrbitVelocity exM C4body C4sun 1).1 ^ 2 +
        (setCircularOrbitVelocity exM C4body C4sun 1).2 ^ 2
      ≠ 1 * C4sun.mass /
          max 1 (ratSqrt (pairDist2 (C4sun.x, C4sun.y) (C4body.x, C4body.y))) := by
  constructor
  · with_unfolding_all decide
  · with_unfolding_all decide

/-- C4 (amended). The returned vector is perpendicular to the anchor-relative
radius vector; its squared magnitude is `G*m/r` for every nonzero radius `r`
(no flooring of `r` at 1: the `|| 1` fallback only replaces `r = 0`), and at
`r = 0` the function returns the zero vector. -/
theorem C4_theorem (M : JsMath) (body sun : Star) (G : ℚ)
    (hd : M.sqrt (pairDist2 (sun.x, sun.y) (body.x, body.y)) ^ 2
        = pairDist2 (sun.x, sun.y) (body.x, body.y))
    (hv : M.sqrt (G * sun.mass /
          (if M.sqrt (pairDist2 (sun.x, sun.y) (body.x, body.y)) = 0 then 1
           else M.sqrt (pairDist2 (sun.x, sun.y) (body.x, body.y)))) ^ 2
        = G * sun.mass /
          (if M.sqrt (pairDist2 (sun.x, sun.y) (body.x, body.y)) = 0 then 1
           else M.sqrt (pairDist2 (sun.x, sun.y) (body.x, body.y)))) :
    (setCircularOrbitVelocity M body sun G).1 * (body.x - sun.x) +
        (setCircularOrbitVelocity M body sun G).2 * (body.y - sun.y) = 0 ∧
    (M.sqrt (pairDist2 (sun.x, sun.y) (body.x, body.y)) ≠ 0 →
      (setCircularOrbitVelocity M body sun G).1 ^ 2 +
          (setCircularOrbitVelocity M body sun G).2 ^ 2
        = G * sun.mass / M.sqrt (pairDist2 (sun.x, sun.y) (body.x, body.y))) ∧
    (pairDist2 (sun.x, sun.y) (body.x, body.y) = 0 →
      setCircularOrbitVelocity M body sun G = (0, 0)) := by
  have hpd : pairDist2 (sun.x, sun.y) (body.x, body.y)
      = (body.x - sun.x) * (body.x - sun.x) + (body.y - sun.y) * (body.y - sun.y) := rfl
  refine ⟨?_, ?_, ?_⟩
  · simp only [setCircularOrbitVelocity]
    ring
  · intro hr0
    simp only [setCircularOrbitVelocity, ← hpd, if_neg hr0]
    simp only [if_neg hr0] at hv
    set r := M.sqrt (pairDist2 (sun.x, sun.y) (body.x, body.y)) with hrdef
    have hstep : (-(body.y - sun.y) / r * M.sqrt (G * sun.mass / r)) ^ 2
        + ((body.x - sun.x) / r * M.sqrt (G * sun.mass / r)) ^ 2
        = ((body.x - sun.x) * (body.x - sun.x) + (body.y - sun.y) * (body.y - sun.y))
          / r ^ 2 * M.sqrt (G * sun.mass / r) ^ 2 := by
      field_simp
      ring
    rw [hstep, ← hpd, ← hd, hv]
    field_simp
  · intro h0
    have hx : body.x - sun.x = 0 := by
      have h1 : (body.x - sun.x) * (body.x - sun.x) = 0 := by
        rw [hpd] at h0
        nlinarith [mul_self_nonneg (body.x - sun.x), mul_self_nonneg (body.y - sun.y)]
      exact mul_self_eq_zero.mp h1
    have hy : body.y - sun.y = 0 := by
      have h1 : (body.y - sun.y) * (body.y - sun.y) = 0 := by
        rw [hpd] at h0
        nlinarith [mul_self_nonneg (body.x - sun.x), mul_self_nonneg (body.y - sun.y)]
      exact mul_self_eq_zero.mp h1
    simp only [setCircularOrbitVelocity]
    rw [hx, hy]
    simp

/-- C4 (amended) witness at the concrete radius-(1/2) example. -/
theorem C4_theorem_witness :
    (setCircularOrbitVelocity exM C4body C4sun 1).1 * (C4body.x - C4sun.x) +
        (setCircularOrbitVelocity exM C4body C4sun 1).2 * (C4body.y - C4sun.y) = 0 ∧
    (ratSqrt (pairDist2 (C4sun.x, C4sun.y) (C4body.x, C4body.y)) ≠ 0 →
      (setCircularOrbitVelocity exM C4body C4sun 1).1 ^ 2 +
          (setCircularOrbitVelocity exM C4body C4sun 1).2 ^ 2
        = 1 * C4sun.mass / ratSqrt (pairDist2 (C4sun.x, C4sun.y) (C4body.x, C4body.y))) ∧
    (pairDist2 (C4sun.x, C4sun.y) (C4body.x, C4body.y) = 0 →
      setCircularOrbitVelocity exM C4body C4sun 1 = (0, 0)) :=
  C4_theorem exM C4body C4sun 1 (by with_unfolding_all decide) (by with_unfolding_all decide)

/-- C9. The claim says adding a link whose unordered endpoint pair already
exists (in either orientation) is a no-op. The guard `hasLink` checks only the
ordered pair, so with `[{source 2, target 3}]` present, adding the reversed
pair `(3, 2)` appends a duplicate link instead of being a no-op. -/
theorem C9_counterexample :
    (hasLink [{ source := "2", target := "3", distance := none }] "2" "3" ||
      hasLink [{ source := "2", target := "3", distance := none }] "3" "2") = true ∧
    addLinkGuarded [{ source := "2", target := "3", distance := none }] "3" "2" none
      ≠ [{ source := "2", target := "3", distance := none }] := by
  constructor
  · decide
  · decide

/-- C9 (amended). The guarded add is a no-op exactly for a duplicate in the
same orientation: when `hasLink links s t` already holds, adding `(s, t)`
leaves the collection unchanged; a reversed duplicate is appended (see the
counterexample). -/
theorem C9_theorem (links : List GraphLink) (s t : String) (d : Option ℚ)
    (h : hasLink links s t = true) :
    addLinkGuarded links s t d = links := by
  unfold addLinkGuarded
  rw [if_pos h]

/-- C9 (amended) witness. -/
theorem C9_theorem_witness :
    addLinkGuarded [{ source := "2", target := "3", distance := none }] "2" "3" none
      = [{ source := "2", target := "3", distance := none }] :=
  C9_theorem [{ source := "2", target := "3", distance := none }] "2" "3" none (by decide)

/-- C8. A drag of a non-anchor body (the anchor being present) updates only the
dragged body's orbit-cache entries: its radius and theta are recomputed from
the dropped position, its omega is `omegaForRadius` of the new radius and the
passed-in existing `minR0` (no recalibration), and every other body's radius,
theta and omega entries are unchanged. -/
theorem C8_theorem (M : JsMath) (g : GraphState) (orbit : OrbitState) (minR0 : ℚ)
    (id : String) (x y : ℚ) (sun : Star) (k : String)
    (hsun : getSun (g.stars.map
        (fun s => if s.id = id then { s with x := x, y := y } else s)) = some sun)
    (hid : id ≠ SUN_ID) (hk : k ≠ id) :
    (aget? (handleStarMove M g orbit minR0 id x y).2.radius k = aget? orbit.radius k ∧
     aget? (handleStarMove M g orbit minR0 id x y).2.theta k = aget? orbit.theta k ∧
     aget? (handleStarMove M g orbit minR0 id x y).2.omega k = aget? orbit.omega k) ∧
    (aget? (handleStarMove M g orbit minR0 id x y).2.radius id
        = some (dist2d M x y sun.x sun.y) ∧
     aget? (handleStarMove M g orbit minR0 id x y).2.theta id
        = some (M.atan2 (y - sun.y) (x - sun.x)) ∧
     aget? (handleStarMove M g orbit minR0 id x y).2.omega id
        = some (omegaForRadius M (dist2d M x y sun.x sun.y) minR0)) := by
  have hrw : (handleStarMove M g orbit minR0 id x y).2 =
      { radius := aset orbit.radius id (dist2d M x y sun.x sun.y)
        theta := aset orbit.theta id (M.atan2 (y - sun.y) (x - sun.x))
        omega := aset orbit.omega id (omegaForRadius M (dist2d M x y sun.x sun.y) minR0) } := by
    simp only [handleStarMove]
    rw [hsun]
    simp [hid]
  rw [hrw]
  have hik : id ≠ k := fun h => hk h.symm
  exact ⟨⟨aget?_aset_ne _ _ _ _ hik, aget?_aset_ne _ _ _ _ hik, aget?_aset_ne _ _ _ _ hik⟩,
    aget?_aset_self _ _ _, aget?_aset_self _ _ _, aget?_aset_self _ _ _⟩

def C8graph : GraphState :=
  { stars := [{ id := "1", name := "sun", mass := 100, x := 0, y := 0, vx := 0, vy := 0,
                color := none },
              { id := "2", name := "p", mass := 50, x := 100, y := 0, vx := 0, vy := 0,
                color := none },
              { id := "3", name := "q", mass := 30, x := 0, y := 200, vx := 0, vy := 0,
                color := none }]
    links := [] }

def C8orbit : OrbitState :=
  { radius := [("2", 100), ("3", 200)]
    theta := [("2", 0), ("3", 7)]
    omega := [("2", 5), ("3", 11)] }

/-- C8 witness: dragging body 2 leaves body 3's cached entries unchanged and
sets body 2's entries from the dropped position and the existing calibration. -/
theorem C8_theorem_witness :
    (aget? (handleStarMove exM C8graph C8orbit 100 "2" 30 40).2.radius "3"
        = aget? C8orbit.radius "3" ∧
     aget? (handleStarMove exM C8graph C8orbit 100 "2" 30 40).2.theta "3"
        = aget? C8orbit.theta "3" ∧
     aget? (handleStarMove exM C8graph C8orbit 100 "2" 30 40).2.omega "3"
        = aget? C8orbit.omega "3") ∧
    (aget? (handleStarMove exM C8graph C8orbit 100 "2" 30 40).2.radius "2"
        = some (dist2d exM 30 40 0 0) ∧
     aget? (handleStarMove exM C8graph C8orbit 100 "2" 30 40).2.theta "2"
        = some (exM.atan2 (40 - 0) (30 - 0)) ∧
     aget? (handleStarMove exM C8graph C8orbit 100 "2" 30 40).2.omega "2"
        = some (omegaForRadius exM (dist2d exM 30 40 0 0) 100)) :=
  C8_theorem exM C8graph C8orbit 100 "2" 30 40
    { id := "1", name := "sun", mass := 100, x := 0, y := 0, vx := 0, vy := 0, color := none }
    "3" (by with_unfolding_all decide) (by decide) (by decide)

/-! Infrastructure for the path-solver proofs. Costs `Option ℚ` (with `none`
as `+∞`) are interpreted in `WithTop ℚ` to reuse its order. -/

def toW : Option ℚ → WithTop ℚ
  | none => ⊤
  | some a => (a : WithTop ℚ)

theorem ltC_iff (c d : Option ℚ) : ltC c d = true ↔ toW c < toW d := by
  cases c <;> cases d <;>
    simp [ltC, toW, WithTop.coe_lt_coe, WithTop.coe_lt_top, lt_irrefl]

theorem ltC_eq_false_iff (c d : Option ℚ) : ltC c d = false ↔ toW d ≤ toW c := by
  rw [← not_lt]
  constructor
  · intro h hlt
    rw [← ltC_iff] at hlt
    rw [h] at hlt
    exact Bool.false_ne_true hlt
  · intro h
    cases hb : ltC c d
    · rfl
    · exact absurd ((ltC_iff c d).mp hb) h

theorem toW_addC (c : Option ℚ) (w : ℚ) : toW (addC c w) = toW c + (w : WithTop ℚ) := by
  cases c <;> simp [addC, toW]

theorem toW_eq_top_iff (c : Option ℚ) : toW c = ⊤ ↔ c = none := by
  cases c <;> simp [toW]

/-- The adjacency list of `v` as the loop reads it (`adj.get(v) ?? []`). -/
def edgesOf (adj : List (String × List AdjEdge)) (v : String) : List AdjEdge :=
  (aget? adj v).getD []

def WeightsNonneg (adj : List (String × List AdjEdge)) : Prop :=
  ∀ v, ∀ e ∈ edgesOf adj v, 0 ≤ e.w

def EdgesClosed (adj : List (String × List AdjEdge)) (K : List String) : Prop :=
  ∀ v, ∀ e ∈ edgesOf adj v, e.toId ∈ K

def SymAdj (adj : List (String × List AdjEdge)) : Prop :=
  ∀ u v w, (⟨v, w⟩ : AdjEdge) ∈ edgesOf adj u ↔ (⟨u, w⟩ : AdjEdge) ∈ edgesOf adj v

/-- A walk in the constructed graph from `start` to the indexed node whose
edge weights sum to the indexed cost. -/
inductive PathCost (adj : List (String × List AdjEdge)) (start : String) :
    String → ℚ → Prop
  | refl : PathCost adj start start 0
  | step {v w : String} {c cw : ℚ} :
      PathCost adj start v c → (⟨w, cw⟩ : AdjEdge) ∈ edgesOf adj v →
      PathCost adj start w (c + cw)

theorem PathCost.cast {adj : List (String × List AdjEdge)} {start t : String} {c c' : ℚ}
    (h : PathCost adj start t c) (he : c = c') : PathCost adj start t c' := he ▸ h

theorem PathCost.front {adj : List (String × List AdjEdge)} {v a : String} {c : ℚ}
    (h : PathCost adj v a c) :
    ∀ {u : String} {cw : ℚ}, (⟨v, cw⟩ : AdjEdge) ∈ edgesOf adj u →
      PathCost adj u a (cw + c) := by
  induction h with
  | refl =>
    intro u cw he
    exact (PathCost.step (PathCost.refl) he).cast (by ring)
  | step hp he ih =>
    intro u cw hu
    exact (PathCost.step (ih hu) he).cast (by ring)

theorem PathCost.symm {adj : List (String × List AdjEdge)} (hsym : SymAdj adj)
    {a b : String} {c : ℚ} (h : PathCost adj a b c) : PathCost adj b a c := by
  induction h with
  | refl => exact PathCost.refl
  | step hp he ih =>
    rename_i v w c cw
    have he' : (⟨v, cw⟩ : AdjEdge) ∈ edgesOf adj w := (hsym v w cw).mp he
    exact (ih.front he').cast (by ring)

theorem mem_of_aget? {α : Type} {l : List (String × α)} {k : String} {v : α}
    (h : aget? l k = some v) : (k, v) ∈ l := by
  induction l with
  | nil => simp [aget?] at h
  | cons p t ih =>
    obtain ⟨k₀, v₀⟩ := p
    by_cases h0 : k₀ = k
    · subst h0
      simp [aget?] at h
      simp [h]
    · simp [aget?, h0] at h
      exact List.mem_cons_of_mem _ (ih h)

theorem aget?_of_mem_nodup {α : Type} {l : List (String × α)} {k : String} {v : α}
    (hnd : (akeys l).Nodup) (h : (k, v) ∈ l) : aget? l k = some v := by
  induction l with
  | nil => simp at h
  | cons p t ih =>
    obtain ⟨k₀, v₀⟩ := p
    simp only [akeys, List.map_cons, List.nodup_cons] at hnd
    rcases List.mem_cons.mp h with h1 | h1
    · obtain ⟨hk, hv⟩ := Prod.mk.injEq .. ▸ h1
      injection h1 with hk hv
      subst hk; subst hv
      simp [aget?]
    · have hk0 : k₀ ≠ k := by
        intro hk
        subst hk
        exact hnd.1 (by simpa [akeys] using List.mem_map_of_mem Prod.fst h1)
      simp only [aget?, if_neg hk0]
      exact ih hnd.2 h1

theorem getDist_eq_of_mem_nodup {dist : List (String × Option ℚ)} {k : String}
    {c : Option ℚ} (hnd : (akeys dist).Nodup) (h : (k, c) ∈ dist) :
    getDist dist k = c := by
  unfold getDist
  rw [aget?_of_mem_nodup hnd h]
  rfl

theorem getDist_eq_none_of_not_mem {dist : List (String × Option ℚ)} {k : String}
    (h : k ∉ akeys dist) : getDist dist k = none := by
  unfold getDist
  rw [aget?_eq_none_of_not_mem _ _ h]
  rfl

theorem getDist_some_mem {dist : List (String × Option ℚ)} {k : String} {q : ℚ}
    (h : getDist dist k = some q) : k ∈ akeys dist := by
  by_contra hk
  rw [getDist_eq_none_of_not_mem hk] at h
  simp at h

theorem getDist_aset_self (dist : List (String × Option ℚ)) (k : String) (c : Option ℚ) :
    getDist (aset dist k c) k = c := by
  unfold getDist
  rw [aget?_aset_self]
  rfl

theorem getDist_aset_ne (dist : List (String × Option ℚ)) (k k' : String) (c : Option ℚ)
    (h : k ≠ k') : getDist (aset dist k c) k' = getDist dist k' := by
  unfold getDist
  rw [aget?_aset_ne _ _ _ _ h]

theorem getPrev_aset_self (prev : List (String × Option String)) (k : String)
    (c : Option String) : getPrev (aset prev k c) k = c := by
  unfold getPrev
  rw [aget?_aset_self]
  rfl

theorem getPrev_aset_ne (prev : List (String × Option String)) (k k' : String)
    (c : Option String) (h : k ≠ k') : getPrev (aset prev k c) k' = getPrev prev k' := by
  unfold getPrev
  rw [aget?_aset_ne _ _ _ _ h]

/-! Facts about the initial maps built by folding `aset` over the node list. -/

theorem mem_akeys_aset {α : Type} (l : List (String × α)) (a k : String) (v : α) :
    k ∈ akeys (aset l a v) ↔ k ∈ akeys l ∨ k = a := by
  rw [akeys_aset]
  by_cases hm : a ∈ akeys l
  · simp only [if_pos hm]
    constructor
    · exact Or.inl
    · rintro (h | rfl)
      · exact h
      · exact hm
  · simp [if_neg hm]

theorem nodup_akeys_aset {α : Type} (l : List (String × α)) (a : String) (v : α)
    (h : (akeys l).Nodup) : (akeys (aset l a v)).Nodup := by
  rw [akeys_aset]
  by_cases hm : a ∈ akeys l
  · simpa [if_pos hm] using h
  · rw [if_neg hm]
    refine List.Nodup.append h (List.nodup_singleton a) ?_
    intro x hx hxa
    rw [List.mem_singleton] at hxa
    subst hxa
    exact hm hx

theorem mem_akeys_foldl_aset {α : Type} (v : α) (ns : List Star) :
    ∀ (l : List (String × α)) (k : String),
      k ∈ akeys (ns.foldl (fun m n => aset m n.id v) l) ↔
        k ∈ akeys l ∨ ∃ n ∈ ns, n.id = k := by
  induction ns with
  | nil => intro l k; simp
  | cons n ns ih =>
    intro l k
    simp only [List.foldl_cons]
    rw [ih]
    rw [mem_akeys_aset]
    constructor
    · rintro ((h | rfl) | h)
      · exact Or.inl h
      · exact Or.inr ⟨n, List.mem_cons_self .., rfl⟩
      · obtain ⟨m, hm, hmk⟩ := h
        exact Or.inr ⟨m, List.mem_cons_of_mem _ hm, hmk⟩
    · rintro (h | ⟨m, hm, hmk⟩)
      · exact Or.inl (Or.inl h)
      · rcases List.mem_cons.mp hm with rfl | hm'
        · exact Or.inl (Or.inr hmk.symm)
        · exact Or.inr ⟨m, hm', hmk⟩

theorem nodup_akeys_foldl_aset {α : Type} (v : α) (ns : List Star) :
    ∀ (l : List (String × α)), (akeys l).Nodup →
      (akeys (ns.foldl (fun m n => aset m n.id v) l)).Nodup := by
  induction ns with
  | nil => intro l h; simpa using h
  | cons n ns ih =>
    intro l h
    simp only [List.foldl_cons]
    exact ih _ (nodup_akeys_aset _ _ _ h)

theorem val_foldl_aset {α : Type} (v : α) (ns : List Star) :
    ∀ (l : List (String × α)), (∀ k c, aget? l k = some c → c = v) →
      ∀ k c, aget? (ns.foldl (fun m n => aset m n.id v) l) k = some c → c = v := by
  induction ns with
  | nil => intro l h; exact h
  | cons n ns ih =>
    intro l h
    simp only [List.foldl_cons]
    refine ih _ ?_
    intro k c hk
    by_cases hkn : n.id = k
    · subst hkn
      rw [aget?_aset_self] at hk
      exact (Option.some.injEq .. ▸ hk).symm
    · rw [aget?_aset_ne _ _ _ _ hkn] at hk
      exact h k c hk

/-! Facts about the constructed adjacency. -/

theorem edgesOf_addAdjEdge (adj : List (String × List AdjEdge)) (k : String) (e : AdjEdge)
    (u : String) :
    edgesOf (addAdjEdge adj k e) u =
      if k = u then edgesOf adj u ++ [e] else edgesOf adj u := by
  unfold addAdjEdge edgesOf
  by_cases hk : k = u
  · subst hk
    rw [aget?_aset_self, if_pos rfl]
    rfl
  · rw [aget?_aset_ne _ _ _ _ hk, if_neg hk]

theorem mem_edges_addPair (adj : List (String × List AdjEdge)) (k1 k2 : String)
    (f1 f2 : AdjEdge) (u : String) (e : AdjEdge) :
    e ∈ edgesOf (addAdjEdge (addAdjEdge adj k1 f1) k2 f2) u ↔
      e ∈ edgesOf adj u ∨ (k1 = u ∧ e = f1) ∨ (k2 = u ∧ e = f2) := by
  rw [edgesOf_addAdjEdge]
  by_cases h2 : k2 = u
  · rw [if_pos h2, edgesOf_addAdjEdge]
    by_cases h1 : k1 = u
    · rw [if_pos h1]
      simp [h1, h2, or_assoc]
    · rw [if_neg h1]
      simp [h1, h2]
  · rw [if_neg h2, edgesOf_addAdjEdge]
    by_cases h1 : k1 = u
    · rw [if_pos h1]
      simp [h1, h2]
    · rw [if_neg h1]
      simp [h1, h2]

/-- The exclusion-zone test for a resolved link (the sun resolved via `byId`). -/
def LinkExcluded (M : JsMath) (nodes : List Star) (o : DijkstraOpts) (a b : Star) : Prop :=
  ∃ s, byId nodes o.sunId = some s ∧
    distPointToSegment M s.x s.y a.x a.y b.x b.y < o.sunBlockRadius

/-- Where an edge added while processing one link comes from. -/
def EdgeOriginOne (M : JsMath) (nodes : List Star) (o : DijkstraOpts)
    (lnk : GraphLink) (u : String) (e : AdjEdge) : Prop :=
  ∃ a b : Star,
    byId nodes lnk.source = some a ∧ byId nodes lnk.target = some b ∧
    ((u = a.id ∧ e.toId = b.id) ∨ (u = b.id ∧ e.toId = a.id)) ∧
    ((¬ LinkExcluded M nodes o a b ∧ e.w = linkWeight M o a b) ∨
     (LinkExcluded M nodes o a b ∧ o.forbidThroughSun = false ∧
        e.w = linkWeight M o a b + o.penalty))

/-- Where every edge of the constructed adjacency comes from. -/
def EdgeOrigin (M : JsMath) (nodes : List Star) (links : List GraphLink)
    (o : DijkstraOpts) (u : String) (e : AdjEdge) : Prop :=
  ∃ lnk ∈ links, EdgeOriginOne M nodes o lnk u e

theorem byId_mem {nodes : List Star} {k : String} {a : Star}
    (h : byId nodes k = some a) : a ∈ nodes ∧ a.id = k := by
  unfold byId at h
  have hmem := List.mem_of_find?_eq_some h
  have hp := List.find?_some h
  refine ⟨List.mem_reverse.mp hmem, ?_⟩
  simpa using hp

theorem linkWOpt_some_char (M : JsMath) (nodes : List Star) (o : DijkstraOpts)
    (a b : Star) (w' : ℚ)
    (h : linkWOpt M o (byId nodes o.sunId) a b = some w') :
    (¬ LinkExcluded M nodes o a b ∧ w' = linkWeight M o a b) ∨
    (LinkExcluded M nodes o a b ∧ o.forbidThroughSun = false ∧
      w' = linkWeight M o a b + o.penalty) := by
  unfold linkWOpt at h
  split at h
  · rename_i s hs
    split at h
    · rename_i hd
      split at h
      · exact Option.noConfusion h
      · rename_i hf
        injection h with hw
        exact Or.inr ⟨⟨s, hs, hd⟩, Bool.not_eq_true _ ▸ hf, hw.symm⟩
    · rename_i hd
      injection h with hw
      refine Or.inl ⟨?_, hw.symm⟩
      rintro ⟨s', hs', hd'⟩
      rw [hs] at hs'
      injection hs' with hss
      exact hd (hss ▸ hd')
  · rename_i hs
    injection h with hw
    refine Or.inl ⟨?_, hw.symm⟩
    rintro ⟨s', hs', -⟩
    rw [hs] at hs'
    exact Option.noConfusion hs'

theorem edges_processLink_sub (M : JsMath) (nodes : List Star) (o : DijkstraOpts)
    (lnk : GraphLink) (adj : List (String × List AdjEdge)) (u : String) (e : AdjEdge)
    (he : e ∈ edgesOf (processLink M nodes o (byId nodes o.sunId) adj lnk) u) :
    e ∈ edgesOf adj u ∨ EdgeOriginOne M nodes o lnk u e := by
  unfold processLink at he
  split at he
  · rename_i a b hA hB
    split at he
    · exact Or.inl he
    · split at he
      · exact Or.inl he
      · rename_i w' hW
        rcases (mem_edges_addPair ..).mp he with h | ⟨hu, rfl⟩ | ⟨hu, rfl⟩
        · exact Or.inl h
        · refine Or.inr ⟨a, b, hA, hB, Or.inl ⟨hu.symm, rfl⟩, ?_⟩
          rcases linkWOpt_some_char M nodes o a b w' hW with ⟨hne, hw⟩ | ⟨hexc, hf, hw⟩
          · exact Or.inl ⟨hne, hw⟩
          · exact Or.inr ⟨hexc, hf, hw⟩
        · refine Or.inr ⟨a, b, hA, hB, Or.inr ⟨hu.symm, rfl⟩, ?_⟩
          rcases linkWOpt_some_char M nodes o a b w' hW with ⟨hne, hw⟩ | ⟨hexc, hf, hw⟩
          · exact Or.inl ⟨hne, hw⟩
          · exact Or.inr ⟨hexc, hf, hw⟩
  · exact Or.inl he

theorem edgesOf_initAdj (nodes : List Star) (u : String) :
    edgesOf (nodes.foldl (fun m n => aset m n.id ([] : List AdjEdge)) []) u = [] := by
  unfold edgesOf
  cases hg : aget? (nodes.foldl (fun m n => aset m n.id ([] : List AdjEdge)) []) u with
  | none => rfl
  | some es =>
    have := val_foldl_aset ([] : List AdjEdge) nodes []
      (by intro k c h; simp [aget?] at h) u es hg
    simp [this]

theorem foldl_pres {α β : Type} (P : β → Prop) (f : β → α → β) :
    ∀ (ls : List α) (b : β), P b → (∀ b' a, a ∈ ls → P b' → P (f b' a)) →
      P (ls.foldl f b) := by
  intro ls
  induction ls with
  | nil => intro b hb _; simpa using hb
  | cons a ls ih =>
    intro b hb hstep
    simp only [List.foldl_cons]
    refine ih _ (hstep b a (List.mem_cons_self ..) hb) ?_
    intro b' a' ha' hb'
    exact hstep b' a' (List.mem_cons_of_mem _ ha') hb'

theorem edges_buildAdj_origin (M : JsMath) (nodes : List Star) (links : List GraphLink)
    (o : DijkstraOpts) :
    ∀ u, ∀ e ∈ edgesOf (buildAdj M nodes links o) u, EdgeOrigin M nodes links o u e := by
  unfold buildAdj
  refine foldl_pres (fun adj => ∀ u, ∀ e ∈ edgesOf adj u, EdgeOrigin M nodes links o u e)
    (processLink M nodes o (byId nodes o.sunId)) links _ ?_ ?_
  · intro u e he
    rw [edgesOf_initAdj] at he
    exact absurd he (List.not_mem_nil e)
  · intro adj lnk hlnk hC u e he
    rcases edges_processLink_sub M nodes o lnk adj u e he with h | h
    · exact hC u e h
    · exact ⟨lnk, hlnk, h⟩

theorem weightsNonneg_buildAdj (M : JsMath) (nodes : List Star) (links : List GraphLink)
    (o : DijkstraOpts) (hsq : ∀ x, 0 ≤ M.sqrt x) (hpw : ∀ x y, 0 ≤ M.pow x y)
    (h3 : o.forbidThroughSun = true ∨ 0 ≤ o.penalty ∨
      (∀ lnk ∈ links, ∀ a b : Star, byId nodes lnk.source = some a →
        byId nodes lnk.target = some b → ¬ LinkExcluded M nodes o a b)) :
    WeightsNonneg (buildAdj M nodes links o) := by
  intro v e he
  obtain ⟨lnk, hlnk, a, b, hA, hB, _, hw⟩ := edges_buildAdj_origin M nodes links o v e he
  have hw0 : 0 ≤ linkWeight M o a b := by
    unfold linkWeight hypotQ
    split
    · exact hsq _
    · exact hpw _ _
  rcases hw with ⟨_, hwe⟩ | ⟨hexc, hf, hwe⟩
  · rw [hwe]; exact hw0
  · rw [hwe]
    rcases h3 with h | h | h
    · rw [h] at hf; exact absurd hf (by simp)
    · exact add_nonneg hw0 h
    · exact absurd hexc (h lnk hlnk a b hA hB)

theorem edges_buildAdj_toId (M : JsMath) (nodes : List Star) (links : List GraphLink)
    (o : DijkstraOpts) :
    ∀ u, ∀ e ∈ edgesOf (buildAdj M nodes links o) u, ∃ n ∈ nodes, n.id = e.toId := by
  intro u e he
  obtain ⟨lnk, _, a, b, hA, hB, hcase, _⟩ := edges_buildAdj_origin M nodes links o u e he
  rcases hcase with ⟨_, hto⟩ | ⟨_, hto⟩
  · exact ⟨b, (byId_mem hB).1, hto.symm⟩
  · exact ⟨a, (byId_mem hA).1, hto.symm⟩

theorem edges_processLink_cases (M : JsMath) (nodes : List Star) (o : DijkstraOpts)
    (sun : Option Star) (adj : List (String × List AdjEdge)) (lnk : GraphLink)
    (u : String) (e : AdjEdge) :
    e ∈ edgesOf (processLink M nodes o sun adj lnk) u ↔
      (e ∈ edgesOf adj u ∨
       ∃ a b : Star, ∃ w' : ℚ,
         byId nodes lnk.source = some a ∧ byId nodes lnk.target = some b ∧
         ¬ ((!(aget? adj a.id).isSome || !(aget? adj b.id).isSome) = true) ∧
         linkWOpt M o sun a b = some w' ∧
         ((u = a.id ∧ e = ⟨b.id, w'⟩) ∨ (u = b.id ∧ e = ⟨a.id, w'⟩))) := by
  unfold processLink
  split
  · rename_i a b hA hB
    by_cases hguard : (!(aget? adj a.id).isSome || !(aget? adj b.id).isSome) = true
    · rw [if_pos hguard]
      constructor
      · exact Or.inl
      · rintro (h | ⟨a', b', w', hA', hB', hguard', hW', hcase⟩)
        · exact h
        · rw [hA] at hA'
          injection hA' with h1
          rw [hB] at hB'
          injection hB' with h2
          subst h1; subst h2
          exact absurd hguard hguard'
    · rw [if_neg hguard]
      cases hW : linkWOpt M o sun a b with
      | none =>
        constructor
        · exact Or.inl
        · rintro (h | ⟨a', b', w', hA', hB', hguard', hW', hcase⟩)
          · exact h
          · rw [hA] at hA'
            injection hA' with h1
            rw [hB] at hB'
            injection hB' with h2
            subst h1; subst h2
            rw [hW] at hW'
            exact Option.noConfusion hW'
      | some w0 =>
        rw [mem_edges_addPair]
        constructor
        · rintro (h | ⟨hu, rfl⟩ | ⟨hu, rfl⟩)
          · exact Or.inl h
          · exact Or.inr ⟨a, b, w0, hA, hB, hguard, hW, Or.inl ⟨hu.symm, rfl⟩⟩
          · exact Or.inr ⟨a, b, w0, hA, hB, hguard, hW, Or.inr ⟨hu.symm, rfl⟩⟩
        · rintro (h | ⟨a', b', w', hA', hB', hguard', hW', hcase⟩)
          · exact Or.inl h
          · rw [hA] at hA'
            injection hA' with h1
            rw [hB] at hB'
            injection hB' with h2
            subst h1; subst h2
            rw [hW] at hW'
            injection hW' with h3
            subst h3
            rcases hcase with ⟨hu, rfl⟩ | ⟨hu, rfl⟩
            · exact Or.inr (Or.inl ⟨hu.symm, rfl⟩)
            · exact Or.inr (Or.inr ⟨hu.symm, rfl⟩)
  · rename_i hfall
    constructor
    · exact Or.inl
    · rintro (h | ⟨a', b', w', hA', hB', -⟩)
      · exact h
      · exact (hfall a' b' hA' hB').elim

theorem symAdj_buildAdj (M : JsMath) (nodes : List Star) (links : List GraphLink)
    (o : DijkstraOpts) : SymAdj (buildAdj M nodes links o) := by
  unfold buildAdj
  refine foldl_pres SymAdj (processLink M nodes o (byId nodes o.sunId)) links _ ?_ ?_
  · intro u v w
    rw [edgesOf_initAdj, edgesOf_initAdj]
    simp
  · intro adj lnk _ hsym u v w
    rw [edges_processLink_cases, edges_processLink_cases]
    constructor
    · rintro (h | ⟨a, b, w', hA, hB, hg, hW, hcase⟩)
      · exact Or.inl ((hsym u v w).mp h)
      · rcases hcase with ⟨hu, he⟩ | ⟨hu, he⟩
        · injection he with h1 h2
          exact Or.inr ⟨a, b, w', hA, hB, hg, hW, Or.inr ⟨h1, by rw [hu, h2]⟩⟩
        · injection he with h1 h2
          exact Or.inr ⟨a, b, w', hA, hB, hg, hW, Or.inl ⟨h1, by rw [hu, h2]⟩⟩
    · rintro (h | ⟨a, b, w', hA, hB, hg, hW, hcase⟩)
      · exact Or.inl ((hsym v u w).mp h)
      · rcases hcase with ⟨hu, he⟩ | ⟨hu, he⟩
        · injection he with h1 h2
          exact Or.inr ⟨a, b, w', hA, hB, hg, hW, Or.inr ⟨h1, by rw [hu, h2]⟩⟩
        · injection he with h1 h2
          exact Or.inr ⟨a, b, w', hA, hB, hg, hW, Or.inl ⟨h1, by rw [hu, h2]⟩⟩

/-! Characterization of the linear minimum scan. -/

theorem selStep_fst_some (used : List String) (acc : Option String × Option ℚ)
    (p : String × Option ℚ) (v : String) (h : acc.1 = some v) :
    ∃ v', (selStep used acc p).1 = some v' := by
  unfold selStep
  split
  · exact ⟨v, h⟩
  · split
    · exact ⟨p.1, rfl⟩
    · exact ⟨v, h⟩

theorem foldl_selStep_fst_some (used : List String) :
    ∀ (l : List (String × Option ℚ)) (acc : Option String × Option ℚ) (v : String),
      acc.1 = some v → ∃ v', (l.foldl (selStep used) acc).1 = some v' := by
  intro l
  induction l with
  | nil => intro acc v h; exact ⟨v, h⟩
  | cons p t ih =>
    intro acc v h
    simp only [List.foldl_cons]
    obtain ⟨v', hv'⟩ := selStep_fst_some used acc p v h
    exact ih _ v' hv'

theorem foldl_selStep_none (used : List String) :
    ∀ (l : List (String × Option ℚ)),
      (l.foldl (selStep used) (none, none)).1 = none →
      ∀ p ∈ l, p.1 ∉ used → p.2 = none := by
  intro l
  induction l with
  | nil => intro _ p hp; exact absurd hp (List.not_mem_nil p)
  | cons p t ih =>
    intro h q hq hqu
    simp only [List.foldl_cons] at h
    by_cases hm : p.1 ∈ used
    · rw [selStep, if_pos hm] at h
      rcases List.mem_cons.mp hq with rfl | hq'
      · exact absurd hm hqu
      · exact ih h q hq' hqu
    · by_cases hlt : ltC p.2 (none : Option ℚ) = true
      · rw [selStep, if_neg hm] at h
        rw [if_pos hlt] at h
        obtain ⟨v', hv'⟩ := foldl_selStep_fst_some used t (some p.1, p.2) p.1 rfl
        rw [hv'] at h
        exact Option.noConfusion h
      · have hp2 : p.2 = none := by
          cases hc : p.2 with
          | none => rfl
          | some a => rw [hc] at hlt; exact absurd rfl hlt
        rw [selStep, if_neg hm, if_neg hlt] at h
        rcases List.mem_cons.mp hq with rfl | hq'
        · exact hp2
        · exact ih h q hq' hqu

theorem foldl_selStep_le (used : List String) :
    ∀ (l : List (String × Option ℚ)) (acc : Option String × Option ℚ),
      toW (l.foldl (selStep used) acc).2 ≤ toW acc.2 ∧
      ∀ p ∈ l, p.1 ∉ used → toW (l.foldl (selStep used) acc).2 ≤ toW p.2 := by
  intro l
  induction l with
  | nil =>
    intro acc
    exact ⟨le_refl _, by intro p hp; exact absurd hp (List.not_mem_nil p)⟩
  | cons p t ih =>
    intro acc
    simp only [List.foldl_cons]
    have hstep : toW (selStep used acc p).2 ≤ toW acc.2 ∧
        (p.1 ∉ used → toW (selStep used acc p).2 ≤ toW p.2) := by
      by_cases hm : p.1 ∈ used
      · rw [selStep, if_pos hm]
        exact ⟨le_refl _, fun hc => absurd hm hc⟩
      · by_cases hlt : ltC p.2 acc.2 = true
        · rw [selStep, if_neg hm, if_pos hlt]
          exact ⟨le_of_lt ((ltC_iff _ _).mp hlt), fun _ => le_refl _⟩
        · have hlt' : ltC p.2 acc.2 = false := by
            revert hlt
            cases ltC p.2 acc.2 <;> simp
          rw [selStep, if_neg hm, if_neg hlt]
          exact ⟨le_refl _, fun _ => (ltC_eq_false_iff _ _).mp hlt'⟩
    obtain ⟨h1, h2⟩ := ih (selStep used acc p)
    refine ⟨le_trans h1 hstep.1, ?_⟩
    intro q hq hqu
    rcases List.mem_cons.mp hq with rfl | hq'
    · exact le_trans h1 (hstep.2 hqu)
    · exact h2 q hq' hqu

theorem foldl_selStep_mem (used : List String) :
    ∀ (l : List (String × Option ℚ)) (acc : Option String × Option ℚ)
      (v : String) (dv : Option ℚ),
      l.foldl (selStep used) acc = (some v, dv) →
      acc = (some v, dv) ∨ ((v, dv) ∈ l ∧ v ∉ used) := by
  intro l
  induction l with
  | nil => intro acc v dv h; exact Or.inl h
  | cons p t ih =>
    intro acc v dv h
    simp only [List.foldl_cons] at h
    rcases ih _ v dv h with h1 | h1
    · by_cases hm : p.1 ∈ used
      · rw [selStep, if_pos hm] at h1
        exact Or.inl h1
      · by_cases hlt : ltC p.2 acc.2 = true
        · rw [selStep, if_neg hm, if_pos hlt] at h1
          injection h1 with h2 h3
          injection h2 with h2
          refine Or.inr ⟨?_, h2 ▸ hm⟩
          rw [← h2, ← h3]
          exact List.mem_cons_self ..
        · rw [selStep, if_neg hm, if_neg hlt] at h1
          exact Or.inl h1
    · exact Or.inr ⟨List.mem_cons_of_mem _ h1.1, h1.2⟩

theorem foldl_selStep_sndsome (used : List String) :
    ∀ (l : List (String × Option ℚ)) (acc : Option String × Option ℚ),
      (acc.1.isSome → acc.2.isSome) →
      ((l.foldl (selStep used) acc).1.isSome → (l.foldl (selStep used) acc).2.isSome) := by
  intro l
  induction l with
  | nil => intro acc h; exact h
  | cons p t ih =>
    intro acc h
    simp only [List.foldl_cons]
    refine ih _ ?_
    by_cases hm : p.1 ∈ used
    · rw [selStep, if_pos hm]; exact h
    · by_cases hlt : ltC p.2 acc.2 = true
      · rw [selStep, if_neg hm, if_pos hlt]
        intro _
        cases hc : p.2 with
        | none => rw [hc] at hlt; exact absurd hlt (by simp [ltC])
        | some a => simp
      · rw [selStep, if_neg hm, if_neg hlt]; exact h

theorem selectMin_some_spec {dist : List (String × Option ℚ)} {used : List String}
    {v : String} {dv : Option ℚ} (hnd : (akeys dist).Nodup)
    (h : selectMin dist used = (some v, dv)) :
    getDist dist v = dv ∧ v ∈ akeys dist ∧ v ∉ used ∧ (∃ d, dv = some d) ∧
      ∀ k, k ∉ used → toW dv ≤ toW (getDist dist k) := by
  have hmem : (v, dv) ∈ dist ∧ v ∉ used := by
    rcases foldl_selStep_mem used dist (none, none) v dv h with h1 | h1
    · exact absurd (congrArg Prod.fst h1) (by simp)
    · exact h1
  have hget : getDist dist v = dv := by
    unfold getDist
    rw [aget?_of_mem_nodup hnd hmem.1]
    rfl
  have h' : dist.foldl (selStep used) (none, none) = (some v, dv) := h
  have hsome : dv.isSome := by
    have := foldl_selStep_sndsome used dist (none, none) (by simp)
    rw [h'] at this
    exact this (by simp)
  refine ⟨hget, ?_, hmem.2, ?_, ?_⟩
  · exact List.mem_map_of_mem Prod.fst hmem.1
  · cases hc : dv with
    | none => rw [hc] at hsome; exact absurd hsome (by simp)
    | some d => exact ⟨d, rfl⟩
  · intro k hk
    have hle := (foldl_selStep_le used dist (none, none)).2
    rw [h'] at hle
    cases hq : aget? dist k with
    | none =>
      rw [getDist, hq]
      exact le_top
    | some c =>
      have hmem' : (k, c) ∈ dist := mem_of_aget? hq
      rw [getDist, hq]
      exact hle (k, c) hmem' hk

theorem selectMin_none_spec {dist : List (String × Option ℚ)} {used : List String}
    {b : Option ℚ} (h : selectMin dist used = (none, b)) :
    ∀ k, k ∉ used → getDist dist k = none := by
  intro k hk
  have hall := foldl_selStep_none used dist (by rw [selectMin] at h; rw [h])
  cases hq : aget? dist k with
  | none => rw [getDist, hq]; rfl
  | some c =>
    have hmem : (k, c) ∈ dist := mem_of_aget? hq
    rw [getDist, hq]
    exact hall (k, c) hmem hk

/-! Path reconstruction: the predecessor chain and the `while (cur)` loop. -/

theorem PathCost_nonneg {adj : List (String × List AdjEdge)} {start : String}
    (hw : WeightsNonneg adj) {t : String} {c : ℚ} (h : PathCost adj start t c) : 0 ≤ c := by
  induction h with
  | refl => exact le_refl 0
  | step hp he ih => exact add_nonneg ih (hw _ _ he)

/-- The predecessor chain followed from `k` down to a node with no predecessor. -/
inductive Chain (prev : List (String × Option String)) : String → List String → Prop
  | last {k : String} : getPrev prev k = none → Chain prev k [k]
  | cons {k u : String} {l : List String} :
      getPrev prev k = some u → Chain prev u l → Chain prev k (k :: l)

theorem Chain.head_eq {prev : List (String × Option String)} {k : String} {l : List String}
    (h : Chain prev k l) : ∃ t, l = k :: t := by
  cases h with
  | last _ => exact ⟨[], rfl⟩
  | cons _ _ => exact ⟨_, rfl⟩

theorem chain_congr {prev prev' : List (String × Option String)} :
    ∀ {k : String} {l : List String}, Chain prev k l →
      (∀ x ∈ l, getPrev prev' x = getPrev prev x) → Chain prev' k l := by
  intro k l h
  induction h with
  | last hk =>
    intro hagree
    exact Chain.last ((hagree _ (List.mem_singleton_self _)).trans hk)
  | cons hk hch ih =>
    rename_i k' u' l'
    intro hagree
    refine Chain.cons ((hagree k' (List.mem_cons_self ..)).trans hk) (ih ?_)
    intro x hx
    exact hagree x (List.mem_cons_of_mem _ hx)

theorem buildPath_zero (prev : List (String × Option String)) (cur? : Option String)
    (acc : List String) : buildPath prev 0 cur? acc = acc := rfl

theorem buildPath_none (prev : List (String × Option String)) (fuel : Nat)
    (acc : List String) : buildPath prev fuel none acc = acc := by
  cases fuel <;> rfl

theorem buildPath_some (prev : List (String × Option String)) (fuel : Nat) (cur : String)
    (acc : List String) :
    buildPath prev (fuel + 1) (some cur) acc =
      if cur = "" then acc else buildPath prev fuel (getPrev prev cur) (acc ++ [cur]) := rfl

theorem buildPath_chain (prev : List (String × Option String)) :
    ∀ {k : String} {l : List String}, Chain prev k l → (∀ x ∈ l, x ≠ "") →
      ∀ (fuel : Nat), l.length ≤ fuel → ∀ acc, buildPath prev fuel (some k) acc = acc ++ l := by
  intro k l h
  induction h with
  | last hk =>
    rename_i k'
    intro hne fuel hf acc
    cases fuel with
    | zero => simp at hf
    | succ m =>
      rw [buildPath_some, if_neg (hne k' (List.mem_singleton_self _)), hk, buildPath_none]
  | cons hk hch ih =>
    rename_i k' u' l'
    intro hne fuel hf acc
    cases fuel with
    | zero => simp at hf
    | succ m =>
      rw [buildPath_some, if_neg (hne k' (List.mem_cons_self ..)), hk]
      have hm : l'.length ≤ m := by
        simp only [List.length_cons] at hf
        omega
      rw [ih (fun x hx => hne x (List.mem_cons_of_mem _ hx)) m hm (acc ++ [k'])]
      simp

/-- Validity of a walk: every consecutive pair of ids is an edge of the adjacency. -/
def ValidWalk (adj : List (String × List AdjEdge)) (l : List String) : Prop :=
  List.Chain' (fun x y => ∃ w, (⟨y, w⟩ : AdjEdge) ∈ edgesOf adj x) l

theorem chain_validwalk {prev : List (String × Option String)}
    {adj : List (String × List AdjEdge)}
    (hedge : ∀ k u, getPrev prev k = some u → ∃ w, (⟨k, w⟩ : AdjEdge) ∈ edgesOf adj u) :
    ∀ {k : String} {l : List String}, Chain prev k l →
      List.Chain' (fun x y => ∃ w, (⟨x, w⟩ : AdjEdge) ∈ edgesOf adj y) l := by
  intro k l h
  induction h with
  | last _ => exact List.chain'_singleton _
  | cons hk hch ih =>
    rename_i k' u' l'
    obtain ⟨t, rfl⟩ := hch.head_eq
    exact List.Chain'.cons (hedge k' u' hk) ih

theorem validwalk_of_chain {prev : List (String × Option String)}
    {adj : List (String × List AdjEdge)}
    (hedge : ∀ k u, getPrev prev k = some u → ∃ w, (⟨k, w⟩ : AdjEdge) ∈ edgesOf adj u)
    {k : String} {l : List String} (h : Chain prev k l) : ValidWalk adj l.reverse := by
  unfold ValidWalk
  rw [List.chain'_reverse]
  exact chain_validwalk hedge h

theorem validwalk_reverse {adj : List (String × List AdjEdge)} (hsym : SymAdj adj)
    {l : List String} (h : ValidWalk adj l) : ValidWalk adj l.reverse := by
  unfold ValidWalk at h ⊢
  rw [List.chain'_reverse]
  refine List.Chain'.imp ?_ h
  rintro a b ⟨w, hw⟩
  exact ⟨w, (hsym a b w).mp hw⟩

/-! Counting lemmas for the loop fuel. -/

theorem length_filter_mono {α : Type} (p q : α → Bool) (hpq : ∀ a, q a = true → p a = true) :
    ∀ l : List α, (l.filter q).length ≤ (l.filter p).length := by
  intro l
  induction l with
  | nil => simp
  | cons a t ih =>
    by_cases hq : q a = true
    · rw [List.filter_cons_of_pos hq, List.filter_cons_of_pos (hpq a hq)]
      simpa using ih
    · rw [List.filter_cons_of_neg (by simpa using hq)]
      by_cases hp : p a = true
      · rw [List.filter_cons_of_pos hp]
        exact le_trans ih (by simp)
      · rw [List.filter_cons_of_neg (by simpa using hp)]
        exact ih

theorem relaxStep_eq (v : String)
    (dp : List (String × Option ℚ) × List (String × Option String)) (ed : AdjEdge) :
    relaxStep v dp ed =
      if ltC (addC (getDist dp.1 v) ed.w) (getDist dp.1 ed.toId) then
        (aset dp.1 ed.toId (addC (getDist dp.1 v) ed.w), aset dp.2 ed.toId (some v))
      else dp := rfl

theorem relaxEdges_cons (v : String) (e : AdjEdge) (t : List AdjEdge)
    (dp : List (String × Option ℚ) × List (String × Option String)) :
    relaxEdges v (e :: t) dp = relaxEdges v t (relaxStep v dp e) := rfl

theorem relax_mono (v : String) :
    ∀ (es : List AdjEdge) (dp : List (String × Option ℚ) × List (String × Option String))
      (k : String),
      toW (getDist (relaxEdges v es dp).1 k) ≤ toW (getDist dp.1 k) := by
  intro es
  induction es with
  | nil => intro dp k; exact le_refl _
  | cons e t ih =>
    intro dp k
    rw [relaxEdges_cons]
    refine le_trans (ih _ k) ?_
    by_cases hlt : ltC (addC (getDist dp.1 v) e.w) (getDist dp.1 e.toId) = true
    · rw [relaxStep_eq, if_pos hlt]
      by_cases hk : e.toId = k
      · subst hk
        rw [getDist_aset_self]
        exact le_of_lt ((ltC_iff _ _).mp hlt)
      · rw [getDist_aset_ne _ _ _ _ hk]
    · rw [relaxStep_eq, if_neg hlt]

theorem length_filter_lt {α : Type} (p q : α → Bool) (hpq : ∀ a, q a = true → p a = true)
    (v : α) (hp : p v = true) (hq : q v = false) :
    ∀ l : List α, v ∈ l → (l.filter q).length < (l.filter p).length := by
  intro l
  induction l with
  | nil => intro h; exact absurd h (List.not_mem_nil v)
  | cons a t ih =>
    intro hv
    rcases List.mem_cons.mp hv with rfl | hv'
    · rw [List.filter_cons_of_neg (by simp [hq]), List.filter_cons_of_pos hp]
      simpa using Nat.lt_succ_of_le (length_filter_mono p q hpq t)
    · by_cases hqa : q a = true
      · rw [List.filter_cons_of_pos hqa, List.filter_cons_of_pos (hpq a hqa)]
        simpa using ih hv'
      · rw [List.filter_cons_of_neg (by simpa using hqa)]
        by_cases hpa : p a = true
        · rw [List.filter_cons_of_pos hpa]
          exact lt_trans (ih hv') (by simp)
        · rw [List.filter_cons_of_neg (by simpa using hpa)]
          exact ih hv'

/-! The loop invariant of the main Dijkstra `while` loop, and its preservation. -/

structure LoopInv (adj : List (String × List AdjEdge)) (start : String)
    (dist : List (String × Option ℚ)) (prev : List (String × Option String))
    (used : List String) : Prop where
  knodup : (akeys dist).Nodup
  closedD : ∀ v, ∀ e ∈ edgesOf adj v, e.toId ∈ akeys dist
  closedP : ∀ v, ∀ e ∈ edgesOf adj v, e.toId ∈ akeys prev
  usedSub : ∀ u ∈ used, u ∈ akeys dist
  usedNd : used.Nodup
  usedFin : ∀ u ∈ used, getDist dist u ≠ none
  usedMin : ∀ u ∈ used, ∀ k, k ∉ used → toW (getDist dist u) ≤ toW (getDist dist k)
  frontier : ∀ u ∈ used, ∀ e ∈ edgesOf adj u,
    toW (getDist dist e.toId) ≤ toW (getDist dist u) + (e.w : WithTop ℚ)
  ub : ∀ k d, getDist dist k = some d → PathCost adj start k d
  startZero : getDist dist start = some 0
  prevU : ∀ k u, getPrev prev k = some u →
    u ∈ used ∧ ∃ w, (⟨k, w⟩ : AdjEdge) ∈ edgesOf adj u
  prevChain : ∀ k ∈ used, ∃ l, Chain prev k l ∧ l.Nodup ∧ (∀ x ∈ l, x ∈ used) ∧
    l.getLast? = some start
  prevNoneStart : ∀ k, getDist dist k ≠ none → getPrev prev k = none → k = start

/-- State of the relaxation pass relative to the state at its start. -/
structure RelaxInv (adj : List (String × List AdjEdge)) (start v : String) (dv : Option ℚ)
    (dist : List (String × Option ℚ)) (prev : List (String × Option String))
    (used : List String)
    (dist₂ : List (String × Option ℚ)) (prev₂ : List (String × Option String)) : Prop where
  keysD : akeys dist₂ = akeys dist
  keysP : akeys prev₂ = akeys prev
  atV : getDist dist₂ v = getDist dist v
  onUsed : ∀ k ∈ used, getDist dist₂ k = getDist dist k
  prevKeep : ∀ k, k ∈ used ∨ k = v → getPrev prev₂ k = getPrev prev k
  mono : ∀ k, toW (getDist dist₂ k) ≤ toW (getDist dist k)
  newLow : ∀ k, getDist dist₂ k = getDist dist k ∨ toW dv ≤ toW (getDist dist₂ k)
  ub : ∀ k d, getDist dist₂ k = some d → PathCost adj start k d
  startZero : getDist dist₂ start = some 0
  prevU : ∀ k u, getPrev prev₂ k = some u →
    u ∈ used ++ [v] ∧ ∃ w, (⟨k, w⟩ : AdjEdge) ∈ edgesOf adj u
  sync : ∀ k, (getDist dist₂ k = getDist dist k ∧ getPrev prev₂ k = getPrev prev k) ∨
    (getPrev prev₂ k = some v ∧ getDist dist₂ k ≠ none)

theorem relax_go {adj : List (String × List AdjEdge)} {start v : String} {dv : Option ℚ}
    {dist : List (String × Option ℚ)} {prev : List (String × Option String)}
    {used : List String}
    (hw : WeightsNonneg adj)
    (hclosedD : ∀ u, ∀ e ∈ edgesOf adj u, e.toId ∈ akeys dist)
    (hclosedP : ∀ u, ∀ e ∈ edgesOf adj u, e.toId ∈ akeys prev)
    (husedMin : ∀ u ∈ used, ∀ k, k ∉ used → toW (getDist dist u) ≤ toW (getDist dist k))
    (hvu : v ∉ used) (hdv : getDist dist v = dv) {d0 : ℚ} (hd0 : dv = some d0) :
    ∀ (es : List AdjEdge), (∀ e ∈ es, e ∈ edgesOf adj v) →
    ∀ dist₂ prev₂, RelaxInv adj start v dv dist prev used dist₂ prev₂ →
    RelaxInv adj start v dv dist prev used
      (relaxEdges v es (dist₂, prev₂)).1 (relaxEdges v es (dist₂, prev₂)).2 ∧
    ∀ e ∈ es, toW (getDist (relaxEdges v es (dist₂, prev₂)).1 e.toId) ≤
      toW dv + (e.w : WithTop ℚ) := by
  intro es
  induction es with
  | nil =>
    intro _ dist₂ prev₂ R
    exact ⟨R, by intro e he; exact absurd he (List.not_mem_nil e)⟩
  | cons e t ih =>
    intro hes dist₂ prev₂ R
    have heA : e ∈ edgesOf adj v := hes e (List.mem_cons_self ..)
    have hwe : 0 ≤ e.w := hw v e heA
    have hwe' : (0 : WithTop ℚ) ≤ (e.w : WithTop ℚ) := by exact_mod_cast hwe
    have hnd : addC (getDist dist₂ v) e.w = some (d0 + e.w) := by
      rw [R.atV, hdv, hd0]; rfl
    have hndW : toW (addC (getDist dist₂ v) e.w) = toW dv + (e.w : WithTop ℚ) := by
      rw [hnd, hd0]
      simp only [toW]
      push_cast
      rfl
    have hposd0 : 0 ≤ d0 := PathCost_nonneg hw (R.ub v d0 (by rw [R.atV, hdv, hd0]))
    have hdvW : toW dv ≤ toW dv + (e.w : WithTop ℚ) := le_add_of_nonneg_right hwe'
    rw [relaxEdges_cons]
    by_cases hlt : ltC (addC (getDist dist₂ v) e.w) (getDist dist₂ e.toId) = true
    · have hltW : toW dv + (e.w : WithTop ℚ) < toW (getDist dist₂ e.toId) := by
        rw [← hndW]; exact (ltC_iff _ _).mp hlt
      have htu : e.toId ∉ used := by
        intro hmem
        have h2 : toW (getDist dist e.toId) ≤ toW (getDist dist v) := husedMin _ hmem v hvu
        rw [R.onUsed _ hmem] at hltW
        rw [hdv] at h2
        exact absurd hltW (not_lt.mpr (le_trans (le_trans h2 hdvW) (le_refl _)))
      have htv : e.toId ≠ v := by
        intro hEq
        rw [hEq, R.atV, hdv] at hltW
        exact absurd hltW (not_lt.mpr hdvW)
      have hts : e.toId ≠ start := by
        intro hEq
        rw [hEq, R.startZero] at hltW
        have h0 : toW (some (0 : ℚ)) ≤ toW dv + (e.w : WithTop ℚ) := by
          rw [hd0]
          simp only [toW]
          exact_mod_cast add_nonneg hposd0 hwe
        exact absurd hltW (not_lt.mpr h0)
      have htK : e.toId ∈ akeys dist₂ := by rw [R.keysD]; exact hclosedD v e heA
      have htP : e.toId ∈ akeys prev₂ := by rw [R.keysP]; exact hclosedP v e heA
      have hstep : relaxStep v (dist₂, prev₂) e =
          (aset dist₂ e.toId (addC (getDist dist₂ v) e.w), aset prev₂ e.toId (some v)) := by
        rw [relaxStep_eq, if_pos hlt]
      have R' : RelaxInv adj start v dv dist prev used
          (aset dist₂ e.toId (addC (getDist dist₂ v) e.w)) (aset prev₂ e.toId (some v)) := by
        refine ⟨?_, ?_, ?_, ?_, ?_, ?_, ?_, ?_, ?_, ?_, ?_⟩
        · rw [akeys_aset, if_pos htK, R.keysD]
        · rw [akeys_aset, if_pos htP, R.keysP]
        · rw [getDist_aset_ne _ _ _ _ htv, R.atV]
        · intro k hk
          have hne : e.toId ≠ k := fun hEq => htu (hEq ▸ hk)
          rw [getDist_aset_ne _ _ _ _ hne]
          exact R.onUsed k hk
        · intro k hk
          have hne : e.toId ≠ k := by
            rcases hk with hk | rfl
            · exact fun hEq => htu (hEq ▸ hk)
            · exact htv
          rw [getPrev_aset_ne _ _ _ _ hne]
          exact R.prevKeep k hk
        · intro k
          by_cases hk : e.toId = k
          · subst hk
            rw [getDist_aset_self, hndW]
            exact le_of_lt (lt_of_lt_of_le hltW (R.mono e.toId))
          · rw [getDist_aset_ne _ _ _ _ hk]
            exact R.mono k
        · intro k
          by_cases hk : e.toId = k
          · subst hk
            right
            rw [getDist_aset_self, hndW]
            exact hdvW
          · rw [getDist_aset_ne _ _ _ _ hk]
            exact R.newLow k
        · intro k d hkd
          by_cases hk : e.toId = k
          · subst hk
            rw [getDist_aset_self, hnd] at hkd
            injection hkd with hkd
            have hp : PathCost adj start v d0 := R.ub v d0 (by rw [R.atV, hdv, hd0])
            exact (PathCost.step hp heA).cast hkd
          · rw [getDist_aset_ne _ _ _ _ hk] at hkd
            exact R.ub k d hkd
        · rw [getDist_aset_ne _ _ _ _ hts]
          exact R.startZero
        · intro k u hku
          by_cases hk : e.toId = k
          · subst hk
            rw [getPrev_aset_self] at hku
            injection hku with hku
            subst hku
            exact ⟨List.mem_append_right _ (List.mem_singleton_self _), ⟨e.w, heA⟩⟩
          · rw [getPrev_aset_ne _ _ _ _ hk] at hku
            exact R.prevU k u hku
        · intro k
          by_cases hk : e.toId = k
          · subst hk
            right
            rw [getPrev_aset_self, getDist_aset_self, hnd]
            exact ⟨rfl, by simp⟩
          · rw [getDist_aset_ne _ _ _ _ hk, getPrev_aset_ne _ _ _ _ hk]
            exact R.sync k
      obtain ⟨Rf, hrest⟩ := ih (fun e' he' => hes e' (List.mem_cons_of_mem _ he')) _ _ R'
      rw [hstep]
      refine ⟨Rf, ?_⟩
      intro e' he'
      rcases List.mem_cons.mp he' with rfl | he''
      · refine le_trans (relax_mono v t _ e'.toId) ?_
        rw [getDist_aset_self, hndW]
      · exact hrest e' he''
    · have hstep : relaxStep v (dist₂, prev₂) e = (dist₂, prev₂) := by
        rw [relaxStep_eq, if_neg hlt]
      obtain ⟨Rf, hrest⟩ := ih (fun e' he' => hes e' (List.mem_cons_of_mem _ he')) dist₂ prev₂ R
      rw [hstep]
      refine ⟨Rf, ?_⟩
      intro e' he'
      rcases List.mem_cons.mp he' with rfl | he''
      · refine le_trans (relax_mono v t _ e'.toId) ?_
        have hle : toW (getDist dist₂ e'.toId) ≤ toW (addC (getDist dist₂ v) e'.w) := by
          refine (ltC_eq_false_iff _ _).mp ?_
          revert hlt
          cases ltC (addC (getDist dist₂ v) e'.w) (getDist dist₂ e'.toId) <;> simp
        rw [hndW] at hle
        exact hle
      · exact hrest e' he''

theorem loopInv_step {adj : List (String × List AdjEdge)} {start : String}
    (hw : WeightsNonneg adj)
    {dist : List (String × Option ℚ)} {prev : List (String × Option String)}
    {used : List String} (I : LoopInv adj start dist prev used)
    {v : String} {dv : Option ℚ} (hsel : selectMin dist used = (some v, dv)) :
    LoopInv adj start (relaxEdges v (edgesOf adj v) (dist, prev)).1
      (relaxEdges v (edgesOf adj v) (dist, prev)).2 (used ++ [v]) ∧
    akeys (relaxEdges v (edgesOf adj v) (dist, prev)).1 = akeys dist ∧
    akeys (relaxEdges v (edgesOf adj v) (dist, prev)).2 = akeys prev ∧
    v ∈ akeys dist ∧ v ∉ used := by
  obtain ⟨hdv, hvK, hvu, ⟨d0, hd0⟩, hminK⟩ := selectMin_some_spec I.knodup hsel
  have R0 : RelaxInv adj start v dv dist prev used dist prev :=
    ⟨rfl, rfl, rfl, fun k _ => rfl, fun k _ => rfl, fun k => le_refl _,
     fun k => Or.inl rfl, I.ub, I.startZero,
     fun k u h => ⟨List.mem_append_left _ (I.prevU k u h).1, (I.prevU k u h).2⟩,
     fun k => Or.inl ⟨rfl, rfl⟩⟩
  obtain ⟨R, hfr⟩ := relax_go hw I.closedD I.closedP I.usedMin hvu hdv hd0
    (edgesOf adj v) (fun e he => he) dist prev R0
  refine ⟨⟨?_, ?_, ?_, ?_, ?_, ?_, ?_, ?_, ?_, ?_, ?_, ?_, ?_⟩,
    R.keysD, R.keysP, hvK, hvu⟩
  · rw [R.keysD]; exact I.knodup
  · intro u e he; rw [R.keysD]; exact I.closedD u e he
  · intro u e he; rw [R.keysP]; exact I.closedP u e he
  · intro u hu
    rcases List.mem_append.mp hu with hu' | hu'
    · rw [R.keysD]; exact I.usedSub u hu'
    · rw [List.mem_singleton] at hu'
      subst hu'
      rw [R.keysD]; exact hvK
  · refine List.Nodup.append I.usedNd (List.nodup_singleton v) ?_
    intro x hx hxv
    rw [List.mem_singleton] at hxv
    subst hxv
    exact hvu hx
  · intro u hu
    rcases List.mem_append.mp hu with hu' | hu'
    · rw [R.onUsed u hu']; exact I.usedFin u hu'
    · rw [List.mem_singleton] at hu'
      subst hu'
      rw [R.atV, hdv, hd0]
      simp
  · intro u hu k hk
    have hk1 : k ∉ used := fun h => hk (List.mem_append_left _ h)
    have hk2 : k ≠ v := fun h => hk (List.mem_append_right _ (h ▸ List.mem_singleton_self _))
    rcases List.mem_append.mp hu with hu' | hu'
    · rw [R.onUsed u hu']
      rcases R.newLow k with heq | hge
      · rw [heq]; exact I.usedMin u hu' k hk1
      · refine le_trans ?_ hge
        rw [← hdv]
        exact I.usedMin u hu' v hvu
    · rw [List.mem_singleton] at hu'
      subst hu'
      rw [R.atV, hdv]
      rcases R.newLow k with heq | hge
      · rw [heq]; exact hminK k hk1
      · exact hge
  · intro u hu e he
    rcases List.mem_append.mp hu with hu' | hu'
    · rw [R.onUsed u hu']
      exact le_trans (R.mono e.toId) (I.frontier u hu' e he)
    · rw [List.mem_singleton] at hu'
      subst hu'
      rw [R.atV, hdv]
      exact hfr e he
  · exact R.ub
  · exact R.startZero
  · exact R.prevU
  · intro k hk
    rcases List.mem_append.mp hk with hk' | hk'
    · obtain ⟨l, hch, hnd, hsub, hlast⟩ := I.prevChain k hk'
      exact ⟨l, chain_congr hch (fun x hx => R.prevKeep x (Or.inl (hsub x hx))), hnd,
        fun x hx => List.mem_append_left _ (hsub x hx), hlast⟩
    · rw [List.mem_singleton] at hk'
      subst hk'
      have hpv : getPrev (relaxEdges k (edgesOf adj k) (dist, prev)).2 k = getPrev prev k :=
        R.prevKeep k (Or.inr rfl)
      cases hgp : getPrev prev k with
      | none =>
        have hks : k = start := I.prevNoneStart k (by rw [hdv, hd0]; simp) hgp
        refine ⟨[k], Chain.last (by rw [hpv, hgp]), List.nodup_singleton k, ?_, ?_⟩
        · intro x hx
          rw [List.mem_singleton] at hx
          subst hx
          exact List.mem_append_right _ (List.mem_singleton_self _)
        · rw [hks]; rfl
      | some u =>
        obtain ⟨hu, hedge⟩ := I.prevU k u hgp
        obtain ⟨l, hch, hnd, hsub, hlast⟩ := I.prevChain u hu
        have hch' : Chain (relaxEdges k (edgesOf adj k) (dist, prev)).2 u l :=
          chain_congr hch (fun x hx => R.prevKeep x (Or.inl (hsub x hx)))
        refine ⟨k :: l, Chain.cons (by rw [hpv, hgp]) hch', ?_, ?_, ?_⟩
        · exact List.nodup_cons.mpr ⟨fun h => hvu (hsub k h), hnd⟩
        · intro x hx
          rcases List.mem_cons.mp hx with rfl | hx'
          · exact List.mem_append_right _ (List.mem_singleton_self _)
          · exact List.mem_append_left _ (hsub x hx')
        · obtain ⟨t, rfl⟩ := hch.head_eq
          rw [List.getLast?_cons_cons]
          exact hlast
  · intro k hfin hnone
    rcases R.sync k with ⟨hdk, hpk⟩ | ⟨hpk, _⟩
    · rw [hdk] at hfin
      rw [hpk] at hnone
      exact I.prevNoneStart k hfin hnone
    · rw [hpk] at hnone
      exact Option.noConfusion hnone

theorem dijkLoop_zero (adj : List (String × List AdjEdge)) (goal : String)
    (dist : List (String × Option ℚ)) (prev : List (String × Option String))
    (used : List String) : dijkLoop adj goal 0 dist prev used = (dist, prev) := rfl

theorem dijkLoop_succ_eq (adj : List (String × List AdjEdge)) (goal : String) (fuel : Nat)
    (dist : List (String × Option ℚ)) (prev : List (String × Option String))
    (used : List String) :
    dijkLoop adj goal (fuel + 1) dist prev used =
      match selectMin dist used with
      | (none, _) => (dist, prev)
      | (some v, _) =>
        if v = goal then (dist, prev)
        else
          dijkLoop adj goal fuel
            (relaxEdges v (edgesOf adj v) (dist, prev)).1
            (relaxEdges v (edgesOf adj v) (dist, prev)).2 (used ++ [v]) := rfl

theorem dijkLoop_spec {adj : List (String × List AdjEdge)} {start : String} (goal : String)
    (hw : WeightsNonneg adj) :
    ∀ (fuel : Nat) (dist : List (String × Option ℚ)) (prev : List (String × Option String))
      (used : List String),
      LoopInv adj start dist prev used →
      ((akeys dist).filter (fun k => decide (k ∉ used))).length < fuel →
      ∃ used',
        LoopInv adj start (dijkLoop adj goal fuel dist prev used).1
          (dijkLoop adj goal fuel dist prev used).2 used' ∧
        akeys (dijkLoop adj goal fuel dist prev used).1 = akeys dist ∧
        akeys (dijkLoop adj goal fuel dist prev used).2 = akeys prev ∧
        ((∀ k, k ∉ used' → getDist (dijkLoop adj goal fuel dist prev used).1 k = none) ∨
         (goal ∉ used' ∧ ∀ k, k ∉ used' →
           toW (getDist (dijkLoop adj goal fuel dist prev used).1 goal) ≤
             toW (getDist (dijkLoop adj goal fuel dist prev used).1 k))) := by
  intro fuel
  induction fuel with
  | zero => intro dist prev used _ hm; exact absurd hm (Nat.not_lt_zero _)
  | succ m ih =>
    intro dist prev used I hm
    rw [dijkLoop_succ_eq]
    split
    · rename_i b hsel
      exact ⟨used, I, rfl, rfl, Or.inl (fun k hk => selectMin_none_spec hsel k hk)⟩
    · rename_i v b hsel
      by_cases hvg : v = goal
      · rw [if_pos hvg]
        obtain ⟨hdv, hvK, hvu, ⟨d0, hd0⟩, hminK⟩ := selectMin_some_spec I.knodup hsel
        subst hvg
        refine ⟨used, I, rfl, rfl, Or.inr ⟨hvu, ?_⟩⟩
        intro k hk
        rw [hdv]
        exact hminK k hk
      · rw [if_neg hvg]
        obtain ⟨I', hkD, hkP, hvK, hvu⟩ := loopInv_step hw I hsel
        have hm' : ((akeys (relaxEdges v (edgesOf adj v) (dist, prev)).1).filter
            (fun k => decide (k ∉ used ++ [v]))).length < m := by
          rw [hkD]
          have hlt := length_filter_lt (fun k => decide (k ∉ used))
            (fun k => decide (k ∉ used ++ [v]))
            (by intro a ha
                simp only [decide_eq_true_eq] at ha ⊢
                intro hmem
                exact ha (List.mem_append_left _ hmem))
            v (by simp [hvu]) (by simp) (akeys dist) hvK
          omega
        obtain ⟨used', If, hkD2, hkP2, hend⟩ := ih _ _ _ I' hm'
        exact ⟨used', If, by rw [hkD2, hkD], by rw [hkP2, hkP], hend⟩

theorem pathBound {adj : List (String × List AdjEdge)} {start : String}
    {dist : List (String × Option ℚ)} {prev : List (String × Option String)}
    {used : List String} (hw : WeightsNonneg adj) (I : LoopInv adj start dist prev used) :
    ∀ {t : String} {c : ℚ}, PathCost adj start t c →
      toW (getDist dist t) ≤ (c : WithTop ℚ) ∨
      ∃ y, y ∉ used ∧ toW (getDist dist y) ≤ (c : WithTop ℚ) := by
  intro t c h
  induction h with
  | refl =>
    left
    rw [I.startZero]
    simp [toW]
  | step hp he ih =>
    rename_i v' w' c' cw'
    have hcw : 0 ≤ cw' := hw _ _ he
    have hccast : ((c' + cw' : ℚ) : WithTop ℚ) = (c' : WithTop ℚ) + (cw' : WithTop ℚ) := by
      push_cast
      rfl
    have hmono : (c' : WithTop ℚ) ≤ ((c' + cw' : ℚ) : WithTop ℚ) := by
      rw [WithTop.coe_le_coe]
      exact le_add_of_nonneg_right hcw
    rcases ih with h1 | ⟨y, hy, h2⟩
    · by_cases hv : v' ∈ used
      · left
        calc toW (getDist dist w') ≤ toW (getDist dist v') + (cw' : WithTop ℚ) :=
              I.frontier v' hv _ he
          _ ≤ (c' : WithTop ℚ) + (cw' : WithTop ℚ) := add_le_add_right h1 _
          _ = _ := hccast.symm
      · right
        exact ⟨v', hv, le_trans h1 hmono⟩
    · right
      exact ⟨y, hy, le_trans h2 hmono⟩

theorem loopInv_init (M : JsMath) (nodes : List Star) (links : List GraphLink)
    (o : DijkstraOpts) (start : String) :
    LoopInv (buildAdj M nodes links o) start
      (aset (nodes.foldl (fun m n => aset m n.id (none : Option ℚ)) []) start (some 0))
      (nodes.foldl (fun m n => aset m n.id (none : Option String)) [])
      [] := by
  have hdist0 : ∀ k, k ≠ start →
      getDist (aset (nodes.foldl (fun m n => aset m n.id (none : Option ℚ)) []) start
        (some 0)) k = none := by
    intro k hk
    rw [getDist_aset_ne _ _ _ _ (fun h => hk h.symm)]
    cases hq : aget? (nodes.foldl (fun m n => aset m n.id (none : Option ℚ)) []) k with
    | none => rw [getDist, hq]; rfl
    | some c =>
      have := val_foldl_aset (none : Option ℚ) nodes []
        (by intro k' c' h'; exact absurd h' (by simp [aget?])) k c hq
      rw [getDist, hq, this]
      rfl
  refine ⟨?_, ?_, ?_, ?_, List.nodup_nil, ?_, ?_, ?_, ?_, ?_, ?_, ?_, ?_⟩
  · exact nodup_akeys_aset _ _ _ (nodup_akeys_foldl_aset _ _ [] (by simp [akeys]))
  · intro v e he
    obtain ⟨n, hn, hid⟩ := edges_buildAdj_toId M nodes links o v e he
    rw [mem_akeys_aset]
    exact Or.inl ((mem_akeys_foldl_aset _ _ _ _).mpr (Or.inr ⟨n, hn, hid⟩))
  · intro v e he
    obtain ⟨n, hn, hid⟩ := edges_buildAdj_toId M nodes links o v e he
    exact (mem_akeys_foldl_aset _ _ _ _).mpr (Or.inr ⟨n, hn, hid⟩)
  · intro u hu; exact absurd hu (List.not_mem_nil u)
  · intro u hu; exact absurd hu (List.not_mem_nil u)
  · intro u hu; exact absurd hu (List.not_mem_nil u)
  · intro u hu; exact absurd hu (List.not_mem_nil u)
  · intro k d hkd
    by_cases hk : k = start
    · subst hk
      rw [getDist_aset_self] at hkd
      injection hkd with hkd
      exact PathCost.refl.cast hkd
    · rw [hdist0 k hk] at hkd
      exact Option.noConfusion hkd
  · exact getDist_aset_self _ _ _
  · intro k u hku
    exfalso
    cases hq : aget? (nodes.foldl (fun m n => aset m n.id (none : Option String)) []) k with
    | none => rw [getPrev, hq] at hku; exact Option.noConfusion hku
    | some c =>
      have := val_foldl_aset (none : Option String) nodes []
        (by intro k' c' h'; exact absurd h' (by simp [aget?])) k c hq
      rw [getPrev, hq, this] at hku
      exact Option.noConfusion hku
  · intro k hk; exact absurd hk (List.not_mem_nil k)
  · intro k hfin _
    by_contra hk
    exact hfin (hdist0 k hk)

theorem exit_chain {adj : List (String × List AdjEdge)} {start : String}
    {dist : List (String × Option ℚ)} {prev : List (String × Option String)}
    {used : List String} (I : LoopInv adj start dist prev used)
    {goal : String} {c : ℚ} (hgc : getDist dist goal = some c) :
    ∃ l, Chain prev goal l ∧ l.Nodup ∧ (∀ x ∈ l, x ∈ akeys dist) ∧
      l.getLast? = some start ∧ ∃ t, l = goal :: t := by
  by_cases hgu : goal ∈ used
  · obtain ⟨l, hch, hnd, hsub, hlast⟩ := I.prevChain goal hgu
    exact ⟨l, hch, hnd, fun x hx => I.usedSub x (hsub x hx), hlast, hch.head_eq⟩
  · cases hgp : getPrev prev goal with
    | none =>
      have hgs : goal = start := I.prevNoneStart goal (by rw [hgc]; simp) hgp
      refine ⟨[goal], Chain.last hgp, List.nodup_singleton _, ?_, by rw [hgs]; rfl, ⟨[], rfl⟩⟩
      intro x hx
      rw [List.mem_singleton] at hx
      subst hx
      exact getDist_some_mem hgc
    | some u =>
      obtain ⟨hu, hedge⟩ := I.prevU goal u hgp
      obtain ⟨l, hch, hnd, hsub, hlast⟩ := I.prevChain u hu
      refine ⟨goal :: l, Chain.cons hgp hch,
        List.nodup_cons.mpr ⟨fun h => hgu (hsub _ h), hnd⟩, ?_, ?_, ⟨l, rfl⟩⟩
      · intro x hx
        rcases List.mem_cons.mp hx with rfl | hx'
        · exact getDist_some_mem hgc
        · exact I.usedSub x (hsub x hx')
      · obtain ⟨t, rfl⟩ := hch.head_eq
        rw [List.getLast?_cons_cons]
        exact hlast

theorem dijkstraPath_state (M : JsMath) (nodes : List Star) (links : List GraphLink)
    (start goal : String) (o : DijkstraOpts)
    (hw : WeightsNonneg (buildAdj M nodes links o)) :
    ∃ (dp : List (String × Option ℚ) × List (String × Option String)) (used' : List String),
      dijkstraPath M nodes links start goal o =
        (match getDist dp.1 goal with
         | none => ({ path := [], cost := none } : PathResult)
         | some c =>
           { path := (buildPath dp.2 (dp.1.length + 1) (some goal) []).reverse
             cost := some c }) ∧
      LoopInv (buildAdj M nodes links o) start dp.1 dp.2 used' ∧
      (∀ k, k ∈ akeys dp.1 ↔ (k = start ∨ ∃ n ∈ nodes, n.id = k)) ∧
      ((∀ k, k ∉ used' → getDist dp.1 k = none) ∨
       (goal ∉ used' ∧ ∀ k, k ∉ used' →
         toW (getDist dp.1 goal) ≤ toW (getDist dp.1 k))) := by
  have I0 := loopInv_init M nodes links o start
  have hfe : ∀ (l : List String), l.filter (fun k => decide (k ∉ ([] : List String))) = l := by
    intro l
    refine List.filter_eq_self.mpr ?_
    intro a _
    simp
  have hmeas : ((akeys (aset (nodes.foldl (fun m n => aset m n.id (none : Option ℚ)) [])
      start (some 0))).filter (fun k => decide (k ∉ ([] : List String)))).length <
      (aset (nodes.foldl (fun m n => aset m n.id (none : Option ℚ)) [])
        start (some 0)).length + 1 := by
    rw [hfe]
    have hlen : (akeys (aset (nodes.foldl (fun m n => aset m n.id (none : Option ℚ)) [])
        start (some 0))).length =
        (aset (nodes.foldl (fun m n => aset m n.id (none : Option ℚ)) [])
          start (some 0)).length := by
      unfold akeys
      exact List.length_map ..
    omega
  obtain ⟨used', I', hkD, hkP, hend⟩ := dijkLoop_spec goal hw _ _ _ _ I0 hmeas
  refine ⟨_, used', rfl, I', ?_, hend⟩
  intro k
  rw [hkD, mem_akeys_aset, mem_akeys_foldl_aset]
  simp only [akeys, List.map_nil, List.not_mem_nil, false_or]
  exact or_comm

theorem dijkstraPath_main (M : JsMath) (nodes : List Star) (links : List GraphLink)
    (start goal : String) (o : DijkstraOpts)
    (hw : WeightsNonneg (buildAdj M nodes links o))
    (hne : ∀ n ∈ nodes, n.id ≠ "") (hs : start ≠ "") :
    (∀ c : ℚ, PathCost (buildAdj M nodes links o) start goal c →
       toW (dijkstraPath M nodes links start goal o).cost ≤ (c : WithTop ℚ)) ∧
    (∀ c : ℚ, (dijkstraPath M nodes links start goal o).cost = some c →
       PathCost (buildAdj M nodes links o) start goal c) ∧
    (∀ c : ℚ, (dijkstraPath M nodes links start goal o).cost = some c →
       ValidWalk (buildAdj M nodes links o) (dijkstraPath M nodes links start goal o).path ∧
       (dijkstraPath M nodes links start goal o).path.head? = some start ∧
       (dijkstraPath M nodes links start goal o).path.getLast? = some goal) ∧
    ((dijkstraPath M nodes links start goal o).cost = none →
       (dijkstraPath M nodes links start goal o).path = []) := by
  obtain ⟨dp, used', heq, I, hkeys, hend⟩ := dijkstraPath_state M nodes links start goal o hw
  have hlb : ∀ c : ℚ, PathCost (buildAdj M nodes links o) start goal c →
      toW (getDist dp.1 goal) ≤ (c : WithTop ℚ) := by
    intro c hc
    rcases pathBound hw I hc with h | ⟨y, hy, h2⟩
    · exact h
    · rcases hend with hend | ⟨_, hmin⟩
      · rw [hend y hy] at h2
        have h3 : (⊤ : WithTop ℚ) ≤ (c : WithTop ℚ) := h2
        exact absurd (top_le_iff.mp h3) (WithTop.coe_ne_top)
      · exact le_trans (hmin y hy) h2
  cases hgd : getDist dp.1 goal with
  | none =>
    rw [hgd] at heq
    have hres : dijkstraPath M nodes links start goal o = { path := [], cost := none } := heq
    refine ⟨?_, ?_, ?_, ?_⟩
    · intro c hc
      exfalso
      have h2 := hlb c hc
      rw [hgd] at h2
      have h3 : (⊤ : WithTop ℚ) ≤ (c : WithTop ℚ) := h2
      exact absurd (top_le_iff.mp h3) (WithTop.coe_ne_top)
    · intro c hc
      rw [hres] at hc
      exact Option.noConfusion hc
    · intro c hc
      rw [hres] at hc
      exact Option.noConfusion hc
    · intro _
      rw [hres]
  | some c0 =>
    rw [hgd] at heq
    have hres : dijkstraPath M nodes links start goal o =
        { path := (buildPath dp.2 (dp.1.length + 1) (some goal) []).reverse
          cost := some c0 } := heq
    obtain ⟨l, hch, hnd, hsub, hlast, ⟨t0, hl0⟩⟩ := exit_chain I hgd
    have hneall : ∀ x ∈ l, x ≠ "" := by
      intro x hx
      rcases (hkeys x).mp (hsub x hx) with rfl | ⟨n, hn, hid⟩
      · exact hs
      · exact hid ▸ hne n hn
    have hlen : l.length ≤ dp.1.length + 1 := by
      have h1 : l.length ≤ (akeys dp.1).length := List.Subperm.length_le (hnd.subperm hsub)
      have h2 : (akeys dp.1).length = dp.1.length := by
        unfold akeys
        exact List.length_map ..
      omega
    have hbp : buildPath dp.2 (dp.1.length + 1) (some goal) [] = l := by
      have := buildPath_chain dp.2 hch hneall (dp.1.length + 1) hlen []
      simpa using this
    refine ⟨?_, ?_, ?_, ?_⟩
    · intro c hc
      have h2 := hlb c hc
      rw [hgd] at h2
      rw [hres]
      exact h2
    · intro c hc
      rw [hres] at hc
      have hcc : some c0 = some c := hc
      injection hcc with hcc
      subst hcc
      exact I.ub goal c0 hgd
    · intro c _
      rw [hres]
      refine ⟨?_, ?_, ?_⟩
      · show ValidWalk _ (buildPath dp.2 (dp.1.length + 1) (some goal) []).reverse
        rw [hbp]
        exact validwalk_of_chain (fun k u h => (I.prevU k u h).2) hch
      · show ((buildPath dp.2 (dp.1.length + 1) (some goal) []).reverse).head? = some start
        rw [hbp, List.head?_reverse]
        exact hlast
      · show ((buildPath dp.2 (dp.1.length + 1) (some goal) []).reverse).getLast? = some goal
        rw [hbp, List.getLast?_reverse, hl0]
        rfl
    · intro hc
      rw [hres] at hc
      exact Option.noConfusion hc

/-- The state `(dist, prev)` of `dijkstraPath` when its main loop has finished. -/
def dijkstraState (M : JsMath) (nodes : List Star) (links : List GraphLink)
    (start goal : String) (o : DijkstraOpts) :
    List (String × Option ℚ) × List (String × Option String) :=
  dijkLoop (buildAdj M nodes links o) goal
    ((aset (nodes.foldl (fun m n => aset m n.id (none : Option ℚ)) []) start
      (some 0)).length + 1)
    (aset (nodes.foldl (fun m n => aset m n.id (none : Option ℚ)) []) start (some 0))
    (nodes.foldl (fun m n => aset m n.id (none : Option String)) []) []

theorem dijkstraPath_eq_state (M : JsMath) (nodes : List Star) (links : List GraphLink)
    (start goal : String) (o : DijkstraOpts) :
    dijkstraPath M nodes links start goal o =
      match getDist (dijkstraState M nodes links start goal o).1 goal with
      | none => ({ path := [], cost := none } : PathResult)
      | some c =>
        { path := (buildPath (dijkstraState M nodes links start goal o).2
            ((dijkstraState M nodes links start goal o).1.length + 1) (some goal) []).reverse
          cost := some c } := rfl

/-! A hypothesis-free upper-bound invariant: every finite entry of `dist` is
witnessed by a walk; it needs no weight or key assumptions at all. -/

theorem relax_ub {adj : List (String × List AdjEdge)} {start v : String} :
    ∀ (es : List AdjEdge), (∀ e ∈ es, e ∈ edgesOf adj v) →
    ∀ (dp : List (String × Option ℚ) × List (String × Option String)),
      (∀ k d, getDist dp.1 k = some d → PathCost adj start k d) →
      ∀ k d, getDist (relaxEdges v es dp).1 k = some d → PathCost adj start k d := by
  intro es
  induction es with
  | nil => intro _ dp h; exact h
  | cons e t ih =>
    intro hes dp h
    rw [relaxEdges_cons]
    refine ih (fun e' he' => hes e' (List.mem_cons_of_mem _ he')) _ ?_
    by_cases hlt : ltC (addC (getDist dp.1 v) e.w) (getDist dp.1 e.toId) = true
    · rw [relaxStep_eq, if_pos hlt]
      intro k d hkd
      by_cases hk : e.toId = k
      · subst hk
        rw [getDist_aset_self] at hkd
        cases hv : getDist dp.1 v with
        | none => rw [hv] at hkd; exact Option.noConfusion hkd
        | some dv0 =>
          rw [hv] at hkd
          injection hkd with hkd
          exact (PathCost.step (h v dv0 hv) (hes e (List.mem_cons_self ..))).cast hkd
      · rw [getDist_aset_ne _ _ _ _ hk] at hkd
        exact h k d hkd
    · rw [relaxStep_eq, if_neg hlt]
      exact h

theorem dijkLoop_ub {adj : List (String × List AdjEdge)} {start : String} (goal : String) :
    ∀ (fuel : Nat) (dist : List (String × Option ℚ)) (prev : List (String × Option String))
      (used : List String),
      (∀ k d, getDist dist k = some d → PathCost adj start k d) →
      ∀ k d, getDist (dijkLoop adj goal fuel dist prev used).1 k = some d →
        PathCost adj start k d := by
  intro fuel
  induction fuel with
  | zero => intro dist prev used h; exact h
  | succ m ih =>
    intro dist prev used h
    rw [dijkLoop_succ_eq]
    split
    · exact h
    · rename_i v b _
      by_cases hvg : v = goal
      · rw [if_pos hvg]
        exact h
      · rw [if_neg hvg]
        exact ih _ _ _ (relax_ub _ (fun e he => he) _ h)

theorem pathCost_of_no_edges {adj : List (String × List AdjEdge)} {a : String}
    (hemp : ∀ v, edgesOf adj v = []) {b : String} {c : ℚ}
    (h : PathCost adj a b c) : b = a ∧ c = 0 := by
  induction h with
  | refl => exact ⟨rfl, rfl⟩
  | step hp he _ =>
    rw [hemp] at he
    exact absurd he (List.not_mem_nil _)

/-! The Dijkstra claims, with concrete configurations for their witnesses. -/

def starA : Star :=
  { id := "A", name := "A", mass := 1, x := 0, y := 0, vx := 0, vy := 0, color := none }

def starB : Star :=
  { id := "B", name := "B", mass := 1, x := 3, y := 4, vx := 0, vy := 0, color := none }

def linkAB : GraphLink := { source := "A", target := "B", distance := none }

def optsF : DijkstraOpts :=
  { sunId := "1", sunBlockRadius := 90, forbidThroughSun := false,
    penalty := 1000000000, power := 1 }

def optsT : DijkstraOpts :=
  { sunId := "1", sunBlockRadius := 90, forbidThroughSun := true,
    penalty := 1000000000, power := 1 }

/-- C6. If `goalId` is not reachable from `startId` in the graph that
`dijkstraPath` constructs, the result is cost `Infinity` (modelled `none`) and
the empty path; moreover a link one of whose endpoint ids does not resolve in
the node list is skipped by the construction loop (the adjacency is returned
unchanged). -/
theorem C6_theorem (M : JsMath) (nodes : List Star) (links : List GraphLink)
    (startId goalId : String) (o : DijkstraOpts)
    (hunreach : ¬ ∃ c : ℚ, PathCost (buildAdj M nodes links o) startId goalId c) :
    dijkstraPath M nodes links startId goalId o = { path := [], cost := none } ∧
    (∀ lnk : GraphLink, byId nodes lnk.source = none ∨ byId nodes lnk.target = none →
      ∀ adj, processLink M nodes o (byId nodes o.sunId) adj lnk = adj) := by
  constructor
  · have hub : ∀ k d, getDist (dijkstraState M nodes links startId goalId o).1 k = some d →
        PathCost (buildAdj M nodes links o) startId k d :=
      dijkLoop_ub goalId _ _ _ _ (loopInv_init M nodes links o startId).ub
    cases hgd : getDist (dijkstraState M nodes links startId goalId o).1 goalId with
    | some c => exact absurd ⟨c, hub goalId c hgd⟩ hunreach
    | none => rw [dijkstraPath_eq_state, hgd]
  · intro lnk h adj
    unfold processLink
    rcases h with h | h
    · rw [h]
    · rw [h]
      cases byId nodes lnk.source <;> rfl

/-- Witness for C6: two isolated nodes, no links, goal unreachable. -/
theorem C6_theorem_witness :
    dijkstraPath exM [starA, starB] [] "A" "B" optsF = { path := [], cost := none } ∧
    (∀ lnk : GraphLink,
      byId [starA, starB] lnk.source = none ∨ byId [starA, starB] lnk.target = none →
      ∀ adj, processLink exM [starA, starB] optsF (byId [starA, starB] optsF.sunId)
        adj lnk = adj) :=
  C6_theorem exM [starA, starB] [] "A" "B" optsF (by
    rintro ⟨c, hc⟩
    have hemp : ∀ v, edgesOf (buildAdj exM [starA, starB] [] optsF) v = [] := fun v =>
      edgesOf_initAdj [starA, starB] v
    obtain ⟨hba, -⟩ := pathCost_of_no_edges hemp hc
    exact absurd hba (by decide))

/-- C5. With `forbidThroughSun = true`: (a) every edge of the constructed graph
stems from a link whose resolved segment is NOT inside the exclusion radius of
the sun (so the returned path, which by (b) only walks edges of that graph,
never traverses an excluded edge); (b) whenever a finite cost is returned the
path is a valid start-to-goal walk in that graph; (c) if no route exists in the
exclusion-free graph, the result is the unreachable one (empty path, cost
`Infinity`). -/
theorem C5_theorem (M : JsMath) (nodes : List Star) (links : List GraphLink)
    (startId goalId : String) (o : DijkstraOpts)
    (hf : o.forbidThroughSun = true)
    (hsq : ∀ x, 0 ≤ M.sqrt x) (hpw : ∀ x y, 0 ≤ M.pow x y)
    (hne : ∀ n ∈ nodes, n.id ≠ "") (hs : startId ≠ "") :
    (∀ u, ∀ e ∈ edgesOf (buildAdj M nodes links o) u,
      ∃ lnk ∈ links, ∃ a b : Star,
        byId nodes lnk.source = some a ∧ byId nodes lnk.target = some b ∧
        ¬ LinkExcluded M nodes o a b ∧ e.w = linkWeight M o a b ∧
        ((u = a.id ∧ e.toId = b.id) ∨ (u = b.id ∧ e.toId = a.id))) ∧
    (∀ c : ℚ, (dijkstraPath M nodes links startId goalId o).cost = some c →
      ValidWalk (buildAdj M nodes links o) (dijkstraPath M nodes links startId goalId o).path ∧
      (dijkstraPath M nodes links startId goalId o).path.head? = some startId ∧
      (dijkstraPath M nodes links startId goalId o).path.getLast? = some goalId) ∧
    ((¬ ∃ c : ℚ, PathCost (buildAdj M nodes links o) startId goalId c) →
      dijkstraPath M nodes links startId goalId o = { path := [], cost := none }) := by
  have hw : WeightsNonneg (buildAdj M nodes links o) :=
    weightsNonneg_buildAdj M nodes links o hsq hpw (Or.inl hf)
  refine ⟨?_, ?_, ?_⟩
  · intro u e he
    obtain ⟨lnk, hlnk, a, b, hA, hB, hcase, hwcase⟩ :=
      edges_buildAdj_origin M nodes links o u e he
    rcases hwcase with ⟨hnexc, hwe⟩ | ⟨_, hf', _⟩
    · exact ⟨lnk, hlnk, a, b, hA, hB, hnexc, hwe, hcase⟩
    · rw [hf] at hf'
      exact absurd hf' (by simp)
  · intro c hc
    exact (dijkstraPath_main M nodes links startId goalId o hw hne hs).2.2.1 c hc
  · intro hunreach
    have hub : ∀ k d, getDist (dijkstraState M nodes links startId goalId o).1 k = some d →
        PathCost (buildAdj M nodes links o) startId k d :=
      dijkLoop_ub goalId _ _ _ _ (loopInv_init M nodes links o startId).ub
    cases hgd : getDist (dijkstraState M nodes links startId goalId o).1 goalId with
    | some c => exact absurd ⟨c, hub goalId c hgd⟩ hunreach
    | none => rw [dijkstraPath_eq_state, hgd]

/-- Witness for C5 at a concrete two-node, one-link configuration with
`forbidThroughSun` enabled. -/
theorem C5_theorem_witness :
    (∀ u, ∀ e ∈ edgesOf (buildAdj exM [starA, starB] [linkAB] optsT) u,
      ∃ lnk ∈ [linkAB], ∃ a b : Star,
        byId [starA, starB] lnk.source = some a ∧ byId [starA, starB] lnk.target = some b ∧
        ¬ LinkExcluded exM [starA, starB] optsT a b ∧ e.w = linkWeight exM optsT a b ∧
        ((u = a.id ∧ e.toId = b.id) ∨ (u = b.id ∧ e.toId = a.id))) ∧
    (∀ c : ℚ, (dijkstraPath exM [starA, starB] [linkAB] "A" "B" optsT).cost = some c →
      ValidWalk (buildAdj exM [starA, starB] [linkAB] optsT)
        (dijkstraPath exM [starA, starB] [linkAB] "A" "B" optsT).path ∧
      (dijkstraPath exM [starA, starB] [linkAB] "A" "B" optsT).path.head? = some "A" ∧
      (dijkstraPath exM [starA, starB] [linkAB] "A" "B" optsT).path.getLast? = some "B") ∧
    ((¬ ∃ c : ℚ, PathCost (buildAdj exM [starA, starB] [linkAB] optsT) "A" "B" c) →
      dijkstraPath exM [starA, starB] [linkAB] "A" "B" optsT =
        { path := [], cost := none }) :=
  C5_theorem exM [starA, starB] [linkAB] "A" "B" optsT rfl ratSqrt_nonneg
    (fun _ _ => le_refl 0) (by decide) (by decide)

/-- C7. When no exclusion applies to any link (in particular when the sun id
resolves to no node), the returned cost is symmetric in the two endpoints, and
whenever a finite cost is returned the reverse of the returned A-to-B path is a
valid walk from B to A in the constructed graph. -/
theorem C7_theorem (M : JsMath) (nodes : List Star) (links : List GraphLink)
    (A B : String) (o : DijkstraOpts)
    (hsq : ∀ x, 0 ≤ M.sqrt x) (hpw : ∀ x y, 0 ≤ M.pow x y)
    (hno : ∀ lnk ∈ links, ∀ a b : Star, byId nodes lnk.source = some a →
      byId nodes lnk.target = some b → ¬ LinkExcluded M nodes o a b)
    (hne : ∀ n ∈ nodes, n.id ≠ "") (hA : A ≠ "") (hB : B ≠ "") :
    (dijkstraPath M nodes links A B o).cost = (dijkstraPath M nodes links B A o).cost ∧
    (∀ c : ℚ, (dijkstraPath M nodes links A B o).cost = some c →
      ValidWalk (buildAdj M nodes links o) ((dijkstraPath M nodes links A B o).path.reverse) ∧
      ((dijkstraPath M nodes links A B o).path.reverse).head? = some B ∧
      ((dijkstraPath M nodes links A B o).path.reverse).getLast? = some A) := by
  have hw : WeightsNonneg (buildAdj M nodes links o) :=
    weightsNonneg_buildAdj M nodes links o hsq hpw (Or.inr (Or.inr hno))
  have hsym : SymAdj (buildAdj M nodes links o) := symAdj_buildAdj M nodes links o
  obtain ⟨lb1, ub1, walk1, -⟩ := dijkstraPath_main M nodes links A B o hw hne hA
  obtain ⟨lb2, ub2, -, -⟩ := dijkstraPath_main M nodes links B A o hw hne hB
  constructor
  · cases h1 : (dijkstraPath M nodes links A B o).cost with
    | none =>
      cases h2 : (dijkstraPath M nodes links B A o).cost with
      | none => rfl
      | some c2 =>
        exfalso
        have hle := lb1 c2 (PathCost.symm hsym (ub2 c2 h2))
        rw [h1] at hle
        have h3 : (⊤ : WithTop ℚ) ≤ (c2 : WithTop ℚ) := hle
        exact absurd (top_le_iff.mp h3) WithTop.coe_ne_top
    | some c1 =>
      cases h2 : (dijkstraPath M nodes links B A o).cost with
      | none =>
        exfalso
        have hle := lb2 c1 (PathCost.symm hsym (ub1 c1 h1))
        rw [h2] at hle
        have h3 : (⊤ : WithTop ℚ) ≤ (c1 : WithTop ℚ) := hle
        exact absurd (top_le_iff.mp h3) WithTop.coe_ne_top
      | some c2 =>
        have ha := lb2 c1 (PathCost.symm hsym (ub1 c1 h1))
        rw [h2] at ha
        have hb := lb1 c2 (PathCost.symm hsym (ub2 c2 h2))
        rw [h1] at hb
        have ha' : (c2 : WithTop ℚ) ≤ (c1 : WithTop ℚ) := ha
        have hb' : (c1 : WithTop ℚ) ≤ (c2 : WithTop ℚ) := hb
        have hc12 : c1 = c2 := by exact_mod_cast le_antisymm hb' ha'
        rw [hc12]
  · intro c hc
    obtain ⟨hwv, hhd, hlast⟩ := walk1 c hc
    refine ⟨validwalk_reverse hsym hwv, ?_, ?_⟩
    · rw [List.head?_reverse]
      exact hlast
    · rw [List.getLast?_reverse]
      exact hhd

/-- Witness for C7 at a concrete configuration whose sun id resolves to no
node, so no exclusion can apply. -/
theorem C7_theorem_witness :
    (dijkstraPath exM [starA, starB] [] "A" "B" optsF).cost =
      (dijkstraPath exM [starA, starB] [] "B" "A" optsF).cost ∧
    (∀ c : ℚ, (dijkstraPath exM [starA, starB] [] "A" "B" optsF).cost = some c →
      ValidWalk (buildAdj exM [starA, starB] [] optsF)
        ((dijkstraPath exM [starA, starB] [] "A" "B" optsF).path.reverse) ∧
      ((dijkstraPath exM [starA, starB] [] "A" "B" optsF).path.reverse).head? = some "B" ∧
      ((dijkstraPath exM [starA, starB] [] "A" "B" optsF).path.reverse).getLast? =
        some "A") :=
  C7_theorem exM [starA, starB] [] "A" "B" optsF ratSqrt_nonneg (fun _ _ => le_refl 0)
    (fun lnk hlnk => absurd hlnk (List.not_mem_nil lnk)) (by decide) (by decide) (by decide)

end StarViz
